import Mathlib

/-!
Verification of the ConcurrentChess specification against a shallow
embedding of the system.  The rules engine and search core of this
repository live in a Python backend that is not part of the checked-in
sources (only its shell launchers, READMEs and transport-level callers
are); those components are therefore modelled here directly from the
specification's data model and algorithm descriptions (spec §3-§5).  The
frontend components (ChessBoard.tsx, MultiplayerGame.tsx, websocket.ts)
are embedded from their TypeScript sources.

Boards are 64 squares in rank-major order (spec §3); here the 64 optional
pieces are stored as 64 radix-256 digits of a single natural number, one
byte per square, accessed only through `byteAt`/`setByteAt`.  Row 0 is
Black's back rank, matching the frontend grid; White pawns advance
towards row 0.
-/

set_option maxRecDepth 40000

namespace Chess

/-- Modelled from the spec: piece colour, `color ∈ {White, Black}` (§3). -/
inductive Color where
  | White
  | Black
deriving DecidableEq, Repr

/-- Modelled from the spec: the opposite colour, used for turn flipping (§4.1). -/
def Color.opposite : Color → Color
  | .White => .Black
  | .Black => .White

/-- Numeric code of a colour in the packed square encoding. -/
def Color.code : Color → Nat
  | .White => 0
  | .Black => 1

/-- Modelled from the spec: piece kind (§3). -/
inductive Kind where
  | Pawn
  | Knight
  | Bishop
  | Rook
  | Queen
  | King
deriving DecidableEq, Repr

/-- Numeric code of a kind in the packed square encoding (1-6; 0 is empty). -/
def Kind.code : Kind → Nat
  | .Pawn => 1
  | .Knight => 2
  | .Bishop => 3
  | .Rook => 4
  | .Queen => 5
  | .King => 6

/-- Modelled from the spec: a piece `{color, kind, hasMoved}`, immutable once
created (§3); the backend source holding this type is absent from the repo. -/
structure Piece where
  color : Color
  kind : Kind
  hasMoved : Bool
deriving DecidableEq, Repr

/-- Packed byte encoding of a piece: kind in bits 0-2, colour in bit 3,
hasMoved in bit 4.  The byte of an empty square is 0. -/
def Piece.encode (p : Piece) : Nat :=
  p.kind.code + 8 * p.color.code + 16 * (if p.hasMoved then 1 else 0)

/-- Decode one packed square byte back into an optional piece. -/
def decodePiece (v : Nat) : Option Piece :=
  let kc := v % 8
  if kc = 0 then none
  else some ⟨if v / 8 % 2 = 0 then .White else .Black,
             if kc = 1 then .Pawn else if kc = 2 then .Knight
             else if kc = 3 then .Bishop else if kc = 4 then .Rook
             else if kc = 5 then .Queen else .King,
             v / 16 % 2 = 1⟩

/-- Digit `i` of the radix-256 packed square sequence. -/
def byteAt (n i : Nat) : Nat := n >>> (8 * i) % 256

/-- Replace digit `i` of the packed square sequence by `v`. -/
def setByteAt (n i v : Nat) : Nat := n - (byteAt n i <<< (8 * i)) + (v <<< (8 * i))

/-- Horner construction of a packed square sequence from the digit function
`f` on positions `0..n-1`. -/
def buildN : Nat → (Nat → Nat) → Nat
  | 0, _ => 0
  | n + 1, f => f 0 + 256 * buildN n fun j => f (j + 1)

/-- Pack the 64-square digit function `f` into one natural number. -/
def buildPacked (f : Nat → Nat) : Nat := buildN 64 f

/-- Modelled from the spec: per-colour castling rights `{kingSide, queenSide}` (§3). -/
structure SideRights where
  kingSide : Bool
  queenSide : Bool
deriving DecidableEq, Repr

/-- Modelled from the spec: castling rights for both colours (§3). -/
structure CastlingRights where
  white : SideRights
  black : SideRights
deriving DecidableEq, Repr

/-- Modelled from the spec: a Board value — 64 optional pieces in rank-major
order (packed, one byte per square), side to move, en-passant target,
castling rights, halfmove clock and fullmove number (§3).  The Python
`chess_engine.py` holding the original is not in the repository sources. -/
structure Board where
  squares : Nat
  turn : Color
  enPassantTarget : Option (Nat × Nat)
  castlingRights : CastlingRights
  halfmoveClock : Nat
  fullmoveNumber : Nat
deriving DecidableEq, Repr

/-- Rank-major index of the square at row `r`, column `c` (§3). -/
def sqIdx (r c : Nat) : Nat := 8 * r + c

/-- Packed byte of the square at row `r`, column `c`. -/
def Board.code (b : Board) (r c : Nat) : Nat := byteAt b.squares (sqIdx r c)

/-- The optional piece on the square at row `r`, column `c` (§3). -/
def Board.pieceAt (b : Board) (r c : Nat) : Option Piece := decodePiece (b.code r c)

/-- Board with the square at row `r`, column `c` replaced by byte `v`. -/
def Board.setSq (b : Board) (r c v : Nat) : Board :=
  { b with squares := setByteAt b.squares (sqIdx r c) v }

/-- Modelled from the spec: a Move `{fromSquare, toSquare, promotion,
isEnPassant, isCastling}` (§3), squares as row/column pairs as in the
frontend wire format. -/
structure Move where
  fromRow : Nat
  fromCol : Nat
  toRow : Nat
  toCol : Nat
  promotion : Option Kind
  isEnPassant : Bool
  isCastling : Bool
deriving DecidableEq, Repr

/-- Build a plain move value. -/
def mkMove (fr fc tr tc : Nat) (promo : Option Kind) (ep castle : Bool) : Move :=
  ⟨fr, fc, tr, tc, promo, ep, castle⟩

/-- All 64 board squares as row/column pairs, rank-major (§3). -/
def squares64 : List (Nat × Nat) :=
  (List.range 8).flatMap fun r => (List.range 8).map fun c => (r, c)

/-- Is the byte `v` an empty square? -/
def emptyCode (v : Nat) : Bool := v % 8 = 0

/-- Does the byte `v` hold a piece of colour `a` (any kind)? -/
def colCode (v : Nat) (a : Color) : Bool := v % 8 ≠ 0 && v / 8 % 2 = a.code

/-- Does the byte `v` hold a piece of colour `a` and kind `k` (the hasMoved
bit is ignored)? -/
def colKindCode (v : Nat) (a : Color) (k : Kind) : Bool := v % 16 = 8 * a.code + k.code

/-- Compass directions of the sliding pieces; row 0 is Black's back rank, so
N decreases the row index. -/
inductive Dir where
  | N
  | S
  | E
  | W
  | NE
  | NW
  | SE
  | SW
deriving DecidableEq, Repr

/-- One step in a compass direction from square `(r, c)`; `none` beyond the
board edge (sliding rays stop at the edge, §4.2). -/
def Dir.step : Dir → Nat → Nat → Option (Nat × Nat)
  | .N, r, c => if 1 ≤ r then some (r - 1, c) else none
  | .S, r, c => if r ≤ 6 then some (r + 1, c) else none
  | .E, r, c => if c ≤ 6 then some (r, c + 1) else none
  | .W, r, c => if 1 ≤ c then some (r, c - 1) else none
  | .NE, r, c => if 1 ≤ r ∧ c ≤ 6 then some (r - 1, c + 1) else none
  | .NW, r, c => if 1 ≤ r ∧ 1 ≤ c then some (r - 1, c - 1) else none
  | .SE, r, c => if r ≤ 6 ∧ c ≤ 6 then some (r + 1, c + 1) else none
  | .SW, r, c => if r ≤ 6 ∧ 1 ≤ c then some (r + 1, c - 1) else none

/-- Rook ray directions. -/
def rookDirs : List Dir := [.N, .S, .E, .W]

/-- Bishop ray directions. -/
def bishopDirs : List Dir := [.NE, .NW, .SE, .SW]

/-- Queen ray directions. -/
def queenDirs : List Dir := rookDirs ++ bishopDirs

/-- The on-board knight-jump targets from `(r, c)` (fixed offsets, §4.2). -/
def knightHops (r c : Nat) : List (Nat × Nat) :=
  (if 2 ≤ r ∧ 1 ≤ c then [(r - 2, c - 1)] else []) ++
  (if 2 ≤ r ∧ c ≤ 6 then [(r - 2, c + 1)] else []) ++
  (if 1 ≤ r ∧ 2 ≤ c then [(r - 1, c - 2)] else []) ++
  (if 1 ≤ r ∧ c ≤ 5 then [(r - 1, c + 2)] else []) ++
  (if r ≤ 6 ∧ 2 ≤ c then [(r + 1, c - 2)] else []) ++
  (if r ≤ 6 ∧ c ≤ 5 then [(r + 1, c + 2)] else []) ++
  (if r ≤ 5 ∧ 1 ≤ c then [(r + 2, c - 1)] else []) ++
  (if r ≤ 5 ∧ c ≤ 6 then [(r + 2, c + 1)] else [])

/-- The on-board king-step targets from `(r, c)` (fixed offsets, §4.2). -/
def kingHops (r c : Nat) : List (Nat × Nat) :=
  (if 1 ≤ r ∧ 1 ≤ c then [(r - 1, c - 1)] else []) ++
  (if 1 ≤ r then [(r - 1, c)] else []) ++
  (if 1 ≤ r ∧ c ≤ 6 then [(r - 1, c + 1)] else []) ++
  (if 1 ≤ c then [(r, c - 1)] else []) ++
  (if c ≤ 6 then [(r, c + 1)] else []) ++
  (if r ≤ 6 ∧ 1 ≤ c then [(r + 1, c - 1)] else []) ++
  (if r ≤ 6 then [(r + 1, c)] else []) ++
  (if r ≤ 6 ∧ c ≤ 6 then [(r + 1, c + 1)] else [])

/-- The squares from which a pawn of colour `a` attacks `(r, c)`; a White
pawn attacks towards row 0, a Black pawn towards row 7 (§4.2). -/
def pawnAttackers (a : Color) (r c : Nat) : List (Nat × Nat) :=
  match a with
  | .White =>
    (if r ≤ 6 ∧ 1 ≤ c then [(r + 1, c - 1)] else []) ++
    (if r ≤ 6 ∧ c ≤ 6 then [(r + 1, c + 1)] else [])
  | .Black =>
    (if 1 ≤ r ∧ 1 ≤ c then [(r - 1, c - 1)] else []) ++
    (if 1 ≤ r ∧ c ≤ 6 then [(r - 1, c + 1)] else [])

/-- Walk from `(r, c)` in direction `d` and return the byte of the first
occupied square met, 0 when the ray runs off the board empty (§4.2). -/
def scanRay (b : Board) (d : Dir) (r c : Nat) : Nat → Nat
  | 0 => 0
  | n + 1 =>
    match d.step r c with
    | none => 0
    | some s =>
      let v := b.code s.1 s.2
      if v % 8 = 0 then scanRay b d s.1 s.2 n else v

/-- Modelled from the spec: square `(r, c)` is attacked by colour `a` when
some piece of colour `a` has it in its pseudo-legal attack set, ignoring
pins (§4.2's check-detection rule), computed by scanning outward from the
square: pawn, knight and king contact attacks plus the first piece on each
rook and bishop ray. -/
def attackedBy (b : Board) (a : Color) (r c : Nat) : Bool :=
  (pawnAttackers a r c).any (fun s => colKindCode (b.code s.1 s.2) a .Pawn) ||
  (knightHops r c).any (fun s => colKindCode (b.code s.1 s.2) a .Knight) ||
  (kingHops r c).any (fun s => colKindCode (b.code s.1 s.2) a .King) ||
  rookDirs.any (fun d =>
    let v := scanRay b d r c 7
    colKindCode v a .Rook || colKindCode v a .Queen) ||
  bishopDirs.any (fun d =>
    let v := scanRay b d r c 7
    colKindCode v a .Bishop || colKindCode v a .Queen)

/-- The squares holding a king of colour `col`. -/
def kingSquares (b : Board) (col : Color) : List (Nat × Nat) :=
  squares64.filter fun s => colKindCode (b.code s.1 s.2) col .King

/-- Modelled from the spec: colour `col` is in check when a square holding
one of its kings is attacked by the opposite colour (§4.2). -/
def Board.inCheck (b : Board) (col : Color) : Bool :=
  (kingSquares b col).any fun s => attackedBy b col.opposite s.1 s.2

/-- Modelled from the spec: the last rank for the given colour, where its
pawns promote (§4.1). -/
def promoRow : Color → Nat
  | .White => 0
  | .Black => 7

/-- Starting row of the pawns of the given colour. -/
def pawnHomeRow : Color → Nat
  | .White => 6
  | .Black => 1

/-- Back rank of the given colour, where its king and rooks start. -/
def homeRow : Color → Nat
  | .White => 7
  | .Black => 0

/-- Row one pawn step ahead of row `r` for colour `col`; `none` past the
board edge. -/
def pawnStep : Color → Nat → Option Nat
  | .White, r => if 1 ≤ r then some (r - 1) else none
  | .Black, r => if r ≤ 6 then some (r + 1) else none

/-- Modelled from the spec: the four admissible promotion kinds
{Knight, Bishop, Rook, Queen} (§4.1). -/
def promoKinds : List Kind := [.Knight, .Bishop, .Rook, .Queen]

/-- Expand a pawn arrival square into moves: on the last rank one move per
admissible promotion kind, otherwise a single plain move (§4.2). -/
def promoExpand (col : Color) (fr fc tr tc : Nat) : List Move :=
  if tr = promoRow col then promoKinds.map fun k => mkMove fr fc tr tc (some k) false false
  else [mkMove fr fc tr tc none false false]

/-- Modelled from the spec: pawn single and double advances; the double
advance needs both squares empty and the pawn on its home row (§4.2). -/
def pawnForward (b : Board) (col : Color) (r c : Nat) : List Move :=
  match pawnStep col r with
  | none => []
  | some r1 =>
    if emptyCode (b.code r1 c) then
      promoExpand col r c r1 c ++
      (match pawnStep col r1 with
       | none => []
       | some r2 =>
         if r = pawnHomeRow col ∧ emptyCode (b.code r2 c) then
           [mkMove r c r2 c none false false]
         else [])
    else []

/-- Pawn capture from `(r, c)` onto the single diagonal square `(r1, c1)`:
a capture when an enemy piece stands there, an en-passant capture when the
square is empty but is the board's en-passant target (§4.2). -/
def pawnCaptureAt (b : Board) (col : Color) (r c r1 c1 : Nat) : List Move :=
  let v := b.code r1 c1
  if colCode v col.opposite then promoExpand col r c r1 c1
  else if emptyCode v ∧ b.enPassantTarget = some (r1, c1) then
    [mkMove r c r1 c1 none true false]
  else []

/-- Modelled from the spec: pawn diagonal captures, including en passant
when the diagonal square is the board's en-passant target (§4.2).  The
column shift is `right = false` for capture towards column 0. -/
def pawnCapture (b : Board) (col : Color) (r c : Nat) (right : Bool) : List Move :=
  match pawnStep col r with
  | none => []
  | some r1 =>
    match right with
    | false => if 1 ≤ c then pawnCaptureAt b col r c r1 (c - 1) else []
    | true => if c ≤ 6 then pawnCaptureAt b col r c r1 (c + 1) else []

/-- Pseudo-legal pawn moves from one square (§4.2). -/
def pawnMoves (b : Board) (col : Color) (r c : Nat) : List Move :=
  pawnForward b col r c ++ pawnCapture b col r c false ++ pawnCapture b col r c true

/-- Pseudo-legal fixed-offset moves to the given targets: every target not
holding an own piece (knight and king steps, §4.2). -/
def stepMoves (b : Board) (col : Color) (r c : Nat) (hops : List (Nat × Nat)) : List Move :=
  hops.filterMap fun s =>
    if colCode (b.code s.1 s.2) col then none
    else some (mkMove r c s.1 s.2 none false false)

/-- Pseudo-legal sliding moves along one ray: empty squares are targets
until the first occupied square, which is a target exactly when it holds
an enemy piece (§4.2). -/
def rayMoves (b : Board) (col : Color) (fr fc : Nat) (d : Dir) (r c : Nat) : Nat → List Move
  | 0 => []
  | n + 1 =>
    match d.step r c with
    | none => []
    | some s =>
      let v := b.code s.1 s.2
      if emptyCode v then mkMove fr fc s.1 s.2 none false false :: rayMoves b col fr fc d s.1 s.2 n
      else if colCode v col.opposite then [mkMove fr fc s.1 s.2 none false false]
      else []

/-- Pseudo-legal sliding moves in every direction of the list (§4.2). -/
def slideMoves (b : Board) (col : Color) (r c : Nat) (dirs : List Dir) : List Move :=
  dirs.flatMap fun d => rayMoves b col r c d r c 7

/-- Does square `(r, c)` hold a never-moved piece of colour `col`, kind `k`? -/
def unmovedAt (b : Board) (col : Color) (k : Kind) (r c : Nat) : Bool :=
  b.code r c = 8 * col.code + k.code

/-- Modelled from the spec: castling on one wing is generated only when the
right is retained, neither the king nor that rook has moved, the squares
between them are empty, the king is not in check, and the king neither
passes through nor lands on an attacked square; the king travels from
column 4 to column 6 (kingside) or column 2 (queenside) on its back
rank (§4.1). -/
def castleSide (b : Board) (col : Color) (kingside : Bool) : List Move :=
  let hr := homeRow col
  let allowed := if kingside then (if col = .White then b.castlingRights.white.kingSide
                                   else b.castlingRights.black.kingSide)
                 else (if col = .White then b.castlingRights.white.queenSide
                       else b.castlingRights.black.queenSide)
  let rookCol := if kingside then 7 else 0
  let between : List Nat := if kingside then [5, 6] else [1, 2, 3]
  let pass : List Nat := if kingside then [5, 6] else [2, 3]
  let toCol := if kingside then 6 else 2
  if allowed
      && unmovedAt b col .King hr 4
      && unmovedAt b col .Rook hr rookCol
      && between.all (fun cc => emptyCode (b.code hr cc))
      && !attackedBy b col.opposite hr 4
      && pass.all (fun cc => !attackedBy b col.opposite hr cc)
  then [mkMove hr 4 hr toCol none false true]
  else []

/-- Modelled from the spec: pseudo-legal moves of one piece, by kind (§4.2). -/
def pieceMoves (b : Board) (col : Color) (r c : Nat) : Kind → List Move
  | .Pawn => pawnMoves b col r c
  | .Knight => stepMoves b col r c (knightHops r c)
  | .Bishop => slideMoves b col r c bishopDirs
  | .Rook => slideMoves b col r c rookDirs
  | .Queen => slideMoves b col r c queenDirs
  | .King => stepMoves b col r c (kingHops r c) ++ castleSide b col true ++ castleSide b col false

/-- Kinds indexed by their nonzero code, for dispatch from a packed byte. -/
def kindOfCode (v : Nat) : Kind :=
  if v = 1 then .Pawn else if v = 2 then .Knight else if v = 3 then .Bishop
  else if v = 4 then .Rook else if v = 5 then .Queen else .King

/-- Modelled from the spec: phase 1 of the two-phase generator — all
pseudo-legal moves of the side to move, gathered square by square (§4.2). -/
def pseudoMoves (b : Board) : List Move :=
  squares64.flatMap fun s =>
    let v := b.code s.1 s.2
    if colCode v b.turn then pieceMoves b b.turn s.1 s.2 (kindOfCode (v % 8)) else []

/-- Modelled from the spec: update of the castling-rights record — rights
are lost permanently once a king or a granting rook moves or a rook is
captured on its corner (§4.1). -/
def clearSide (cr : CastlingRights) (col : Color) (kingside : Bool) : CastlingRights :=
  match col, kingside with
  | .White, true => { cr with white := { cr.white with kingSide := false } }
  | .White, false => { cr with white := { cr.white with queenSide := false } }
  | .Black, true => { cr with black := { cr.black with kingSide := false } }
  | .Black, false => { cr with black := { cr.black with queenSide := false } }

/-- Clear both castling rights of one colour (its king moved). -/
def clearColor (cr : CastlingRights) (col : Color) : CastlingRights :=
  clearSide (clearSide cr col true) col false

/-- Castling-rights bookkeeping performed by move application (§4.1). -/
def updateRights (cr : CastlingRights) (p : Piece) (m : Move) : CastlingRights :=
  let cr1 :=
    if p.kind = .King then clearColor cr p.color
    else if p.kind = .Rook ∧ m.fromRow = homeRow p.color ∧ m.fromCol = 7 then
      clearSide cr p.color true
    else if p.kind = .Rook ∧ m.fromRow = homeRow p.color ∧ m.fromCol = 0 then
      clearSide cr p.color false
    else cr
  let opp := p.color.opposite
  if m.toRow = homeRow opp ∧ m.toCol = 7 then clearSide cr1 opp true
  else if m.toRow = homeRow opp ∧ m.toCol = 0 then clearSide cr1 opp false
  else cr1

/-- Modelled from the spec: mechanical move application — piece relocated,
captured piece (including the en-passant captured pawn, which sits beside
the arrival square) removed, castling executed atomically with its rook,
promotion replacing the pawn by the chosen kind, castling rights updated,
en-passant target set only on a double pawn push, halfmove clock reset on
capture or pawn move else incremented, turn flipped, and the fullmove
number incremented after Black's move (§4.1).  Legality checking is
layered on top in `applyMove`. -/
def execMove (b : Board) (m : Move) : Board :=
  match b.pieceAt m.fromRow m.fromCol with
  | none => b
  | some p =>
    let isCapture := !emptyCode (b.code m.toRow m.toCol) || m.isEnPassant
    let newKind := m.promotion.getD p.kind
    let b1 := (b.setSq m.fromRow m.fromCol 0).setSq m.toRow m.toCol
      (Piece.encode ⟨p.color, newKind, true⟩)
    let b2 := if m.isEnPassant then b1.setSq m.fromRow m.toCol 0 else b1
    let b3 :=
      if m.isCastling then
        if m.toCol = 6 then
          (b2.setSq m.fromRow 7 0).setSq m.fromRow 5 (Piece.encode ⟨p.color, .Rook, true⟩)
        else
          (b2.setSq m.fromRow 0 0).setSq m.fromRow 3 (Piece.encode ⟨p.color, .Rook, true⟩)
      else b2
    let isDouble : Bool := p.kind = .Pawn &&
      (match p.color with
       | .White => m.fromRow = m.toRow + 2
       | .Black => m.toRow = m.fromRow + 2)
    { b3 with
      turn := b.turn.opposite
      enPassantTarget :=
        if isDouble then
          some ((match p.color with | .White => m.fromRow - 1 | .Black => m.fromRow + 1), m.fromCol)
        else none
      castlingRights := updateRights b.castlingRights p m
      halfmoveClock := if p.kind = .Pawn ∨ isCapture then 0 else b.halfmoveClock + 1
      fullmoveNumber := if b.turn = .Black then b.fullmoveNumber + 1 else b.fullmoveNumber }

/-- Modelled from the spec: phase 2 of the generator — keep the pseudo-legal
moves whose simulation does not leave the moving side's king in check;
the king squares of the simulated board are the current ones, with the
from-square replaced by the arrival square when the king itself moved (§4.2). -/
def legalMoves (b : Board) : List Move :=
  let kings := kingSquares b b.turn
  (pseudoMoves b).filter fun m =>
    let b' := execMove b m
    !(kings.any fun k =>
        let k' := if k = (m.fromRow, m.fromCol) then (m.toRow, m.toCol) else k
        attackedBy b' b.turn.opposite k'.1 k'.2)

/-- Modelled from the spec: the recoverable error taxonomy of `applyMove`
(§7); errors are structured values returned to the caller, never fatal. -/
inductive ApplyError where
  | IllegalMoveError
  | InvalidPromotionError
deriving DecidableEq, Repr

/-- Is the promotion field one of the four admissible kinds (§4.1)? -/
def validPromo : Option Kind → Bool
  | some .Knight => true
  | some .Bishop => true
  | some .Rook => true
  | some .Queen => true
  | _ => false

/-- Does `m` move a pawn onto its last rank (§4.1's promotion clause)? -/
def pawnToLastRank (b : Board) (m : Move) : Bool :=
  match b.pieceAt m.fromRow m.fromCol with
  | some p => decide (p.kind = .Pawn ∧ m.toRow = promoRow p.color)
  | none => false

/-- Modelled from the spec: `applyMove(board, move) -> Board` — succeeds on a
member of `legalMoves(board)`; a pawn move to the last rank without a valid
promotion kind fails with `InvalidPromotionError`, any other illegal move
fails with `IllegalMoveError` (§4.1, §6, §7). -/
def applyMove (b : Board) (m : Move) : Except ApplyError Board :=
  if m ∈ legalMoves b then .ok (execMove b m)
  else if pawnToLastRank b m ∧ !validPromo m.promotion then .error .InvalidPromotionError
  else .error .IllegalMoveError

/-- Kind of the piece opening the game on back-rank column `c`. -/
def backRankKind (c : Nat) : Kind :=
  if c = 0 ∨ c = 7 then .Rook
  else if c = 1 ∨ c = 6 then .Knight
  else if c = 2 ∨ c = 5 then .Bishop
  else if c = 3 then .Queen
  else .King

/-- Piece placement of the standard initial position, as a digit function
on rank-major square indices. -/
def initDigit (i : Nat) : Nat :=
  let r := i / 8
  let c := i % 8
  if r = 0 then Piece.encode ⟨.Black, backRankKind c, false⟩
  else if r = 1 then Piece.encode ⟨.Black, .Pawn, false⟩
  else if r = 6 then Piece.encode ⟨.White, .Pawn, false⟩
  else if r = 7 then Piece.encode ⟨.White, backRankKind c, false⟩
  else 0

/-- Modelled from the spec: the standard initial position with White to
move, full castling rights, no en-passant target, clocks at their start
values (§3). -/
def initialBoard : Board :=
  ⟨buildPacked initDigit, .White, none, ⟨⟨true, true⟩, ⟨true, true⟩⟩, 0, 1⟩

/-- Modelled from the spec: perft — the count of leaf positions reachable by
recursively applying every legal move to the given depth (§8, glossary). -/
def perft (b : Board) : Nat → Nat
  | 0 => 1
  | n + 1 => ((legalMoves b).map fun m => perft (execMove b m) n).sum

/-- Data-model invariant of §3 carried by every board the engine produces:
an en-passant target, when present, lies strictly inside the board (its row
is 2 or 5 in real play, never a back rank). -/
def epOk (b : Board) : Prop :=
  match b.enPassantTarget with
  | some s => 0 < s.1 ∧ s.1 < 7
  | none => True

instance (b : Board) : Decidable (epOk b) := by
  unfold epOk; exact match b.enPassantTarget with
    | some _ => inferInstanceAs (Decidable (_ ∧ _))
    | none => inferInstanceAs (Decidable True)

/-! ## Game-state classification (spec §4.3) -/

/-- Modelled from the spec: the game-status state machine's values (§4.3). -/
inductive GameStatus where
  | Ongoing
  | Check
  | Checkmate
  | Stalemate
  | DrawFiftyMove
  | DrawInsufficientMaterial
  | DrawRepetition
deriving DecidableEq, Repr

/-- Modelled from the spec: the exact position for repetition detection —
piece placement, turn, castling rights and en-passant target (§4.3). -/
def positionKey (b : Board) : Nat × Color × CastlingRights × Option (Nat × Nat) :=
  (b.squares, b.turn, b.castlingRights, b.enPassantTarget)

/-- All pieces on the board other than kings. -/
def nonKingPieces (b : Board) : List Piece :=
  squares64.filterMap fun s =>
    match b.pieceAt s.1 s.2 with
    | some p => if p.kind = .King then none else some p
    | none => none

/-- Modelled from the spec: material insufficient for either side to mate —
bare kings, or a single minor piece (knight or bishop) beside the kings
(§4.3's examples; edge cases left to the implementer by §9). -/
def insufficientMaterial (b : Board) : Bool :=
  match nonKingPieces b with
  | [] => true
  | [p] => p.kind = .Knight || p.kind = .Bishop
  | _ => false

/-- Modelled from the spec: `classify(board, positionHistory)` evaluates, in
this precedence: no legal moves and in check → Checkmate; no legal moves
otherwise → Stalemate; halfmove clock at 100 → DrawFiftyMove; insufficient
material → DrawInsufficientMaterial; current position three times in the
history → DrawRepetition; in check → Check; else Ongoing (§4.3, §6). -/
def classify (b : Board)
    (hist : List (Nat × Color × CastlingRights × Option (Nat × Nat))) : GameStatus :=
  if (legalMoves b).isEmpty then
    if b.inCheck b.turn then .Checkmate else .Stalemate
  else if 100 ≤ b.halfmoveClock then .DrawFiftyMove
  else if insufficientMaterial b then .DrawInsufficientMaterial
  else if 3 ≤ hist.count (positionKey b) then .DrawRepetition
  else if b.inCheck b.turn then .Check
  else .Ongoing

/-! ## Static evaluation and the mirrored board (spec §4.4, §8) -/

/-- Modelled from the spec: per-piece material values in centipawns (§4.4). -/
def pieceVal : Kind → Int
  | .Pawn => 100
  | .Knight => 320
  | .Bishop => 330
  | .Rook => 500
  | .Queen => 900
  | .King => 0

/-- Modelled from the spec: the piece-kind/square positional bonus table,
from White's perspective (§4.4): pawns gain as they advance, minor pieces
gain on central squares. -/
def pst : Kind → Nat → Nat → Int
  | .Pawn, r, _ => 5 * (6 - (r : Int))
  | .Knight, r, c => if 2 ≤ r ∧ r ≤ 5 ∧ 2 ≤ c ∧ c ≤ 5 then 10 else 0
  | .Bishop, r, c => if 2 ≤ r ∧ r ≤ 5 ∧ 2 ≤ c ∧ c ≤ 5 then 10 else 0
  | _, _, _ => 0

/-- Signed contribution of one piece standing on `(r, c)`: White adds its
value and bonus, Black subtracts them, reading the bonus table from its
own side of the board (§4.4). -/
def pieceScore (p : Piece) (r c : Nat) : Int :=
  match p.color with
  | .White => pieceVal p.kind + pst p.kind r c
  | .Black => -(pieceVal p.kind + pst p.kind (7 - r) c)

/-- Material plus positional score over the 64 squares, positive favouring
White (§4.4). -/
def materialScore (b : Board) : Int :=
  (squares64.map fun s =>
    match b.pieceAt s.1 s.2 with
    | some p => pieceScore p s.1 s.2
    | none => 0).sum

/-- Sign of a colour in the White-positive score convention. -/
def colorSign : Color → Int
  | .White => 1
  | .Black => -1

/-- Modelled from the spec: `evaluate(board)` — material values plus
piece-square bonuses plus a scaled-down mobility term counting the legal
moves of the side to move, positive favouring White (§4.4). -/
def evaluate (b : Board) : Int :=
  materialScore b + colorSign b.turn * (2 * ((legalMoves b).length : Int))

/-- Colour-flip of one packed square byte (empty squares unchanged). -/
def flipByte (v : Nat) : Nat :=
  if v % 8 = 0 then v else if v / 8 % 2 = 0 then v + 8 else v - 8

/-- The same piece in the opposite colour. -/
def Piece.flip (p : Piece) : Piece := { p with color := p.color.opposite }

/-- Rank-reflection of a rank-major square index. -/
def mirrorIdx (i : Nat) : Nat := 8 * (7 - i / 8) + i % 8

/-- Rank-reflection and colour-flip of a whole packed square sequence. -/
def mirrorPack (n : Nat) : Nat := buildPacked fun i => flipByte (byteAt n (mirrorIdx i))

/-- Rank-reflection of a row/column square. -/
def mirrorSq (s : Nat × Nat) : Nat × Nat := (7 - s.1, s.2)

/-- Rank-reflection of a move. -/
def mirrorMove (m : Move) : Move :=
  { m with fromRow := 7 - m.fromRow, toRow := 7 - m.toRow }

/-- Modelled from the spec: the mirrored board — colours of all pieces
swapped, ranks reflected, side to move swapped, castling rights exchanged
between the colours, en-passant target reflected (§8's `mirror`). -/
def mirror (b : Board) : Board :=
  { squares := mirrorPack b.squares
    turn := b.turn.opposite
    enPassantTarget := b.enPassantTarget.map mirrorSq
    castlingRights := ⟨b.castlingRights.black, b.castlingRights.white⟩
    halfmoveClock := b.halfmoveClock
    fullmoveNumber := b.fullmoveNumber }

/-! ## Search (spec §4.5, §5)

The spec's search computes the depth-bounded minimax value; alpha-beta
pruning and the advisory transposition table are performance devices that
by §4.5/§5 carry no correctness dependency (entries only short-circuit
subtrees to their identical values), so the model computes the same value
in the plain negamax formulation.  Root-level parallelism is modelled by
letting the root results arrive in an arbitrary order (a permutation) and
aggregating by best score with ties broken by move-generation order. -/

/-- Modelled from the spec: the negamax value of a position at the given
remaining depth — static evaluation at the horizon, checkmate scores
biased to a large magnitude adjusted by remaining depth so faster mates
are preferred, stalemate zero (§4.5). -/
def negamax (b : Board) : Nat → Int
  | 0 => colorSign b.turn * evaluate b
  | d + 1 =>
    let ms := legalMoves b
    if ms.isEmpty then
      if b.inCheck b.turn then -(100000 + (d : Int) + 1) else 0
    else (ms.map fun m => -negamax (execMove b m) d).foldl max (-2000000)

/-- Modelled from the spec: `SearchResult` with the chosen move and its
score from the side to move's perspective (§3). -/
structure SearchResult where
  bestMove : Option Move
  score : Int
deriving DecidableEq, Repr

/-- The root moves tagged with their generation index and their full-depth
search score (§4.5, §5: each root move is searched independently). -/
def rootScored (b : Board) (d : Nat) : List (Nat × Move × Int) :=
  (legalMoves b).enum.map fun im => (im.1, im.2, -negamax (execMove b im.2) d)

/-- Does entry `e` beat entry `a` — strictly higher score, or an equal score
with the earlier generation index (§4.5's tie-break)? -/
def betterEntry (e a : Nat × Move × Int) : Bool :=
  a.2.2 < e.2.2 || (e.2.2 = a.2.2 && e.1 < a.1)

/-- Fold the arriving root results to the best one (first generated wins
among equal scores, §4.5). -/
def pickBest (l : List (Nat × Move × Int)) : Option (Nat × Move × Int) :=
  l.foldl (fun acc e =>
    match acc with
    | none => some e
    | some a => if betterEntry e a then some e else some a) none

/-- Modelled from the spec: `search(board, maxDepth)` — the root aggregation
of the per-root-move full-depth results, in generation order; an empty
result on a terminal position (§4.5, §6). -/
def search (b : Board) (d : Nat) : SearchResult :=
  match pickBest (rootScored b d) with
  | none => ⟨none, if b.inCheck b.turn then -(100000 + (d : Int) + 1) else 0⟩
  | some e => ⟨some e.2.1, e.2.2⟩

end Chess

/-!
## Frontend embedding

The React components are embedded from their TypeScript sources:
`src/frontend/src/components/ChessBoard.tsx`,
`src/frontend/src/pages/MultiplayerGame.tsx` and
`src/frontend/src/services/websocket.ts`.  React state updates become a
step function over an explicit state record; the `onMove` callback
invocations become the emitted-move list of a step.
-/

namespace Frontend

/-- Piece colour in the frontend wire format (`'white' | 'black'`). -/
inductive FColor where
  | white
  | black
deriving DecidableEq, Repr

/-- The frontend `ChessPiece` record: colour, one-letter kind, has-moved
flag (src/frontend/src/types, used by ChessBoard.tsx). -/
structure FPiece where
  color : FColor
  kind : Char
  hasMovedF : Bool
deriving DecidableEq, Repr

/-- The fields of the frontend `ChessBoard` record read by the component:
the 64-entry rank-major `grid` and `turn`. -/
structure FBoard where
  grid : List (Option FPiece)
  turn : FColor
deriving DecidableEq, Repr

/-- The frontend `ChessMove` record (`from_row`.. `promotion: string|null`). -/
structure FMove where
  fromRowF : Nat
  fromColF : Nat
  toRowF : Nat
  toColF : Nat
  promotionF : Option String
  isEnPassantF : Bool
  isCastlingF : Bool
deriving DecidableEq, Repr

/-- The ChessBoard component's props that its click logic reads:
`board`, `legalMoves`, `isPlayerTurn`, `gameResult`
(ChessBoard.tsx lines 5-14). -/
structure BoardProps where
  board : FBoard
  legalMovesP : List FMove
  isPlayerTurnP : Bool
  gameResult : Option String
deriving DecidableEq, Repr

/-- The component-plus-parent state over which clicks act: the parent-owned
`selectedSquare` (the parent's `onSquareClick` handler stores the clicked
square, AIGame.tsx / MultiplayerGame.tsx) and the component's local
`promotionMove` (ChessBoard.tsx line 26). -/
structure BoardState where
  selectedSquare : Option (Nat × Nat)
  promotionMove : Option FMove
deriving DecidableEq, Repr

/-- State before any click. -/
def initBoardState : BoardState := ⟨none, none⟩

/-- `getPiece` of ChessBoard.tsx (line 65): `board.grid[row * 8 + col]`. -/
def getPiece (b : FBoard) (row col : Nat) : Option FPiece :=
  (b.grid.getD (8 * row + col) none)

/-- The `legalMoves.find` predicate of ChessBoard.tsx (lines 82-87): the
move starts at the selected square and ends at the clicked square. -/
def matchesClick (sel : Nat × Nat) (row col : Nat) (m : FMove) : Bool :=
  m.fromRowF = sel.1 && m.fromColF = sel.2 && m.toRowF = row && m.toColF = col

/-- The selected-square branch of `handleSquareClick` (ChessBoard.tsx lines
81-98): look the click pair up in `legalMoves`; a found pawn move to row 0
or 7 is parked as the pending promotion, any other found move is emitted
via `onMove`, and a pair matching no legal move does nothing. -/
def clickAsTarget (p : BoardProps) (st : BoardState) (row col : Nat) :
    BoardState × List FMove :=
  match st.selectedSquare with
  | none => (st, [])
  | some sel =>
    match p.legalMovesP.find? (matchesClick sel row col) with
    | none => (st, [])
    | some m =>
      if (getPiece p.board m.fromRowF m.fromColF).any (fun pc => pc.kind = 'P')
          ∧ (row = 0 ∨ row = 7) then
        ({ st with promotionMove := some m }, [])
      else ({ st with selectedSquare := none }, [m])

/-- `handleSquareClick` of ChessBoard.tsx (lines 69-99): ignore clicks when
the game is over or it is not the player's turn; select own-colour pieces
(the parent's `onSquareClick` records the square); otherwise treat the
click as a move target.  Returns the next state and the list of moves
passed to `onMove`. -/
def handleSquareClick (p : BoardProps) (st : BoardState) (row col : Nat) :
    BoardState × List FMove :=
  if p.gameResult ≠ none ∨ p.isPlayerTurnP = false then (st, [])
  else
    match getPiece p.board row col with
    | some pc =>
      if pc.color = p.board.turn then ({ st with selectedSquare := some (row, col) }, [])
      else clickAsTarget p st row col
    | none => clickAsTarget p st row col

/-- The four promotion choices offered by the modal of ChessBoard.tsx
(lines 115-120). -/
def promoChoices : List String := ["Q", "R", "B", "N"]

/-- `handlePromotion` of ChessBoard.tsx (lines 101-110): emit the parked
move with the chosen promotion letter and close the modal. -/
def handlePromotionClick (st : BoardState) (t : String) : BoardState × List FMove :=
  match st.promotionMove with
  | none => (st, [])
  | some m => ({ st with promotionMove := none, selectedSquare := none },
               [{ m with promotionF := some t }])

/-- A user interaction: a square click, or a click on one of the four
promotion-modal buttons. -/
inductive FEvent where
  | click (row col : Nat)
  | promo (i : Fin 4)
deriving DecidableEq, Repr

/-- One interaction step of the ChessBoard component. -/
def stepEvent (p : BoardProps) (st : BoardState) : FEvent → BoardState × List FMove
  | .click row col => handleSquareClick p st row col
  | .promo i => handlePromotionClick st (promoChoices.get ⟨i.1, i.2⟩)

/-- All moves passed to `onMove` over a sequence of interactions. -/
def runEvents (p : BoardProps) : List FEvent → BoardState → List FMove
  | [], _ => []
  | e :: es, st =>
    let r := stepEvent p st e
    r.2 ++ runEvents p es r.1

/-! ### Multiplayer client (MultiplayerGame.tsx, websocket.ts) -/

/-- Browser WebSocket ready states. -/
inductive ReadyState where
  | CONNECTING
  | OPEN
  | CLOSING
  | CLOSED
deriving DecidableEq, Repr

/-- The `ChessWebSocket`'s underlying socket: `null` or a socket with its
`readyState` (websocket.ts line 10). -/
structure ChessWS where
  socket : Option ReadyState
deriving DecidableEq, Repr

/-- An outbound WebSocket frame of interest: its `type` tag, game id and
optional move payload (websocket.ts `makeMove`, line 214). -/
structure Frame where
  typeTag : String
  gameId : String
  movePayload : Option FMove
deriving DecidableEq, Repr

/-- `ChessWebSocket.send` (websocket.ts lines 179-185): transmit only while
the socket exists and its `readyState` is `OPEN`; otherwise do nothing but
log an error (modelled as `none`). -/
def wsSend (ws : ChessWS) (f : Frame) : Option Frame :=
  if ws.socket = some .OPEN then some f else none

/-- `ChessWebSocket.makeMove` (websocket.ts lines 214-216): send a frame of
type `move` carrying the move. -/
def makeMove (ws : ChessWS) (gid : String) (m : FMove) : Option Frame :=
  wsSend ws ⟨"move", gid, some m⟩

/-- The multiplayer game state read by `handleMove` and `isPlayerTurn`
(MultiplayerGame.tsx lines 15-27): the optional game state with its board,
the connection flag and the assigned player colour. -/
structure MPState where
  gameBoard : Option FBoard
  connected : Bool
  playerColor : Option FColor
deriving DecidableEq, Repr

/-- `isPlayerTurn` of MultiplayerGame.tsx (lines 161-164): a game state and
a colour exist and the board's turn equals the player's colour. -/
def isPlayerTurn (s : MPState) : Bool :=
  match s.gameBoard, s.playerColor with
  | some b, some c => b.turn = c
  | _, _ => false

/-- `handleMove` of MultiplayerGame.tsx (lines 153-159): transmit the move
over the WebSocket only when a game state exists, the connection is up and
it is the player's turn. -/
def handleMove (s : MPState) (ws : ChessWS) (gid : String) (m : FMove) : Option Frame :=
  if s.gameBoard = none ∨ s.connected = false ∨ isPlayerTurn s = false then none
  else makeMove ws gid m

end Frontend

namespace Chess

/-!
## Claim C1: the error taxonomy of applyMove
-/

/-- Test position: White pawn on a7 (row 1, column 0), White king e1,
Black king h8, White to move.  Bytes: pawn 17, moved White king 22,
moved Black king 30. -/
def promoPushBoard : Board :=
  ⟨buildPacked (fun i => if i = 8 then 17 else if i = 60 then 22 else if i = 7 then 30 else 0),
   .White, none, ⟨⟨false, false⟩, ⟨false, false⟩⟩, 0, 1⟩

/-- Test position: as `promoPushBoard` plus a Black rook on a1 (byte 28)
checking the White king along the first rank, White to move. -/
def checkedPromoBoard : Board :=
  ⟨buildPacked (fun i => if i = 8 then 17 else if i = 60 then 22 else if i = 7 then 30
                          else if i = 56 then 28 else 0),
   .White, none, ⟨⟨false, false⟩, ⟨false, false⟩⟩, 0, 1⟩

instance : DecidableEq (Except ApplyError Board) := fun x y =>
  match x, y with
  | .ok a, .ok b =>
    if h : a = b then isTrue (by rw [h]) else isFalse (fun hc => h (Except.ok.inj hc))
  | .error a, .error b =>
    if h : a = b then isTrue (by rw [h]) else isFalse (fun hc => h (Except.error.inj hc))
  | .ok _, .error _ => isFalse (fun hc => Except.noConfusion hc)
  | .error _, .ok _ => isFalse (fun hc => Except.noConfusion hc)

/-- Claim C1, counterexample: on `promoPushBoard` the pawn push a7-a8
without a promotion kind is absent from `legalMoves`, yet `applyMove`
does not fail with `IllegalMoveError` (it fails with
`InvalidPromotionError`), refuting the claimed equivalence. -/
theorem C1_counterexample :
    (⟨1, 0, 0, 0, none, false, false⟩ : Move) ∉ legalMoves promoPushBoard ∧
    applyMove promoPushBoard ⟨1, 0, 0, 0, none, false, false⟩ ≠
      Except.error ApplyError.IllegalMoveError := by
  constructor
  · decide
  · decide

/-!
## Packed-squares digit arithmetic
-/

theorem pow256 (i : Nat) : (2 : Nat) ^ (8 * i) = 256 ^ i := by
  rw [Nat.pow_mul]

theorem byteAt_eq (n i : Nat) : byteAt n i = n / 256 ^ i % 256 := by
  unfold byteAt
  rw [Nat.shiftRight_eq_div_pow, pow256]

theorem byteAt_lt (n i : Nat) : byteAt n i < 256 := by
  rw [byteAt_eq]
  exact Nat.mod_lt _ (by norm_num)

/-- The number with digit `i` replaced, written with the digit-update as an
explicit sum: low part, then the updated upper part times `256 ^ i`. -/
theorem setByteAt_decomp (n i v : Nat) :
    setByteAt n i v = n % 256 ^ i + (n / 256 ^ i - n / 256 ^ i % 256 + v) * 256 ^ i := by
  unfold setByteAt
  rw [Nat.shiftLeft_eq, Nat.shiftLeft_eq, pow256, byteAt_eq]
  set P := (256 : Nat) ^ i with hPdef
  set q := n / P with hqdef
  set rem := n % P with hremdef
  have hqP : n = q * P + rem := by
    rw [Nat.mul_comm]
    exact (Nat.div_add_mod n P).symm
  have hdq : q % 256 * P ≤ q * P := Nat.mul_le_mul_right _ (Nat.mod_le _ _)
  calc n - q % 256 * P + v * P
      = (q * P + rem) - q % 256 * P + v * P := by rw [← hqP]
    _ = (q * P - q % 256 * P) + rem + v * P := by
        rw [Nat.sub_add_comm hdq]
    _ = (q - q % 256) * P + rem + v * P := by rw [Nat.sub_mul]
    _ = rem + (q - q % 256 + v) * P := by ring

theorem byteAt_set_self (n i : Nat) {v : Nat} (hv : v < 256) :
    byteAt (setByteAt n i v) i = v := by
  rw [byteAt_eq, setByteAt_decomp]
  set P := (256 : Nat) ^ i with hPdef
  have hP : 0 < P := Nat.pos_pow_of_pos i (by norm_num)
  have hrem : n % P < P := Nat.mod_lt _ hP
  rw [Nat.add_mul_div_right _ _ hP, Nat.div_eq_of_lt hrem, Nat.zero_add]
  have hq := Nat.div_add_mod (n / P) 256
  have hx : n / P - n / P % 256 + v = 256 * (n / P / 256) + v := by omega
  rw [hx, Nat.mul_add_mod, Nat.mod_eq_of_lt hv]

theorem byteAt_set_ne (n : Nat) {i j : Nat} (hne : j ≠ i) {v : Nat} (hv : v < 256) :
    byteAt (setByteAt n i v) j = byteAt n j := by
  rcases Nat.lt_or_ge j i with hlt | hge
  · -- j < i : digits below i are untouched
    obtain ⟨k, hk⟩ : ∃ k, i = j + (k + 1) := ⟨i - j - 1, by omega⟩
    subst hk
    rw [byteAt_eq, byteAt_eq, setByteAt_decomp]
    have hQ : 0 < (256 : Nat) ^ j := Nat.pos_pow_of_pos j (by norm_num)
    have hsplit : (256 : Nat) ^ (j + (k + 1)) = 256 ^ (k + 1) * 256 ^ j := by
      rw [Nat.pow_add]; ring
    set x := n / 256 ^ (j + (k + 1)) - n / 256 ^ (j + (k + 1)) % 256 + v with hxdef
    have key : ∀ y : Nat, (n % 256 ^ (j + (k + 1)) + y * 256 ^ (j + (k + 1))) / 256 ^ j % 256
        = n % 256 ^ (j + (k + 1)) / 256 ^ j % 256 := by
      intro y
      rw [hsplit]
      rw [show y * (256 ^ (k + 1) * 256 ^ j) = y * 256 ^ (k + 1) * 256 ^ j by ring]
      rw [Nat.add_mul_div_right _ _ hQ]
      rw [show y * 256 ^ (k + 1) = y * 256 ^ k * 256 by rw [Nat.pow_succ]; ring]
      rw [Nat.add_mul_mod_self_right]
    rw [key x]
    have hn : n = n % 256 ^ (j + (k + 1)) + n / 256 ^ (j + (k + 1)) * 256 ^ (j + (k + 1)) := by
      rw [Nat.add_comm, Nat.mul_comm]
      exact (Nat.div_add_mod n (256 ^ (j + (k + 1)))).symm
    conv_rhs => rw [hn]
    rw [key (n / 256 ^ (j + (k + 1)))]
  · -- i < j : the upper digits other than i keep their value
    have hlt : i < j := by omega
    obtain ⟨k, hk⟩ : ∃ k, j = i + (k + 1) := ⟨j - i - 1, by omega⟩
    subst hk
    rw [byteAt_eq, byteAt_eq, setByteAt_decomp]
    set P := (256 : Nat) ^ i with hPdef
    have hP : 0 < P := Nat.pos_pow_of_pos i (by norm_num)
    have hrem : n % P < P := Nat.mod_lt _ hP
    have hsplit : (256 : Nat) ^ (i + (k + 1)) = P * (256 * 256 ^ k) := by
      rw [hPdef, Nat.pow_add, Nat.pow_succ]; ring
    rw [hsplit, ← Nat.div_div_eq_div_mul, ← Nat.div_div_eq_div_mul]
    rw [Nat.add_mul_div_right _ _ hP, Nat.div_eq_of_lt hrem, Nat.zero_add]
    have hq := Nat.div_add_mod (n / P) 256
    have hx : n / P - n / P % 256 + v = 256 * (n / P / 256) + v := by omega
    rw [hx, ← Nat.div_div_eq_div_mul, ← Nat.div_div_eq_div_mul]
    rw [Nat.mul_add_div (by norm_num), Nat.div_eq_of_lt hv, Nat.add_zero]

theorem buildN_digit : ∀ (n : Nat) (f : Nat → Nat) (i : Nat), i < n → (∀ j, f j < 256) →
    byteAt (buildN n f) i = f i := by
  intro n
  induction n with
  | zero => intro f i hi; omega
  | succ k ih =>
    intro f i hi hf
    cases i with
    | zero =>
      rw [byteAt_eq]
      unfold buildN
      simp only [Nat.pow_zero, Nat.div_one]
      rw [Nat.add_mul_mod_self_left]
      exact Nat.mod_eq_of_lt (hf 0)
    | succ m =>
      rw [byteAt_eq]
      unfold buildN
      rw [show (256 : Nat) ^ (m + 1) = 256 * 256 ^ m by rw [Nat.pow_succ]; ring]
      rw [← Nat.div_div_eq_div_mul]
      rw [show f 0 + 256 * buildN k (fun j => f (j + 1))
            = 256 * buildN k (fun j => f (j + 1)) + f 0 by ring]
      rw [Nat.mul_add_div (by norm_num), Nat.div_eq_of_lt (hf 0), Nat.add_zero]
      rw [← byteAt_eq]
      exact ih (fun j => f (j + 1)) m (by omega) (fun j => hf (j + 1))

theorem buildN_lt : ∀ (n : Nat) (f : Nat → Nat), (∀ j, f j < 256) →
    buildN n f < 256 ^ n := by
  intro n
  induction n with
  | zero => intro f _; simp [buildN]
  | succ k ih =>
    intro f hf
    unfold buildN
    have h1 := ih (fun j => f (j + 1)) (fun j => hf (j + 1))
    have h0 := hf 0
    rw [Nat.pow_succ]
    nlinarith

theorem setByteAt_lt {n i v N : Nat} (hn : n < 256 ^ N) (hv : v < 256) (hi : i < N) :
    setByteAt n i v < 256 ^ N := by
  rw [setByteAt_decomp]
  set P := (256 : Nat) ^ i with hPdef
  have hP : 0 < P := Nat.pos_pow_of_pos i (by norm_num)
  have hrem : n % P < P := Nat.mod_lt _ hP
  have hq := Nat.div_add_mod (n / P) 256
  obtain ⟨k, hk⟩ : ∃ k, N = i + (k + 1) := ⟨N - i - 1, by omega⟩
  subst hk
  have hsplit : (256 : Nat) ^ (i + (k + 1)) = 256 ^ (k + 1) * P := by
    rw [hPdef, Nat.pow_add]; ring
  have hqlt : n / P < 256 ^ (k + 1) := by
    rw [Nat.div_lt_iff_lt_mul hP, ← hsplit]
    exact hn
  have hxlt : n / P - n / P % 256 + v < 256 ^ (k + 1) := by
    have h1 : n / P - n / P % 256 + v ≤ n / P + v := by omega
    have h2 : n / P / 256 * 256 + v < (n / P / 256 + 1) * 256 := by omega
    have hx : n / P - n / P % 256 + v = n / P / 256 * 256 + v := by omega
    have hdivlt : n / P / 256 < 256 ^ k := by
      rw [Nat.div_lt_iff_lt_mul (by norm_num : (0:Nat) < 256), ← Nat.pow_succ]
      exact hqlt
    rw [hx]
    calc n / P / 256 * 256 + v < (n / P / 256 + 1) * 256 := h2
      _ ≤ 256 ^ k * 256 := Nat.mul_le_mul_right _ (by omega)
      _ = 256 ^ (k + 1) := (Nat.pow_succ ..).symm
  rw [hsplit]
  have hle : n / P - n / P % 256 + v ≤ 256 ^ (k + 1) - 1 := by omega
  calc n % P + (n / P - n / P % 256 + v) * P
      ≤ (P - 1) + (256 ^ (k + 1) - 1) * P := by
        have := Nat.mul_le_mul_right P hle
        omega
    _ < 256 ^ (k + 1) * P := by
        have h1 : 1 ≤ 256 ^ (k + 1) := Nat.pos_pow_of_pos _ (by norm_num)
        rw [Nat.sub_mul]
        have h2 : P ≤ 256 ^ (k + 1) * P := Nat.le_mul_of_pos_left _ (by omega)
        omega

theorem byteAt_ext : ∀ (N a b : Nat), a < 256 ^ N → b < 256 ^ N →
    (∀ j, j < N → byteAt a j = byteAt b j) → a = b := by
  intro N
  induction N with
  | zero => intro a b ha hb _; simp at ha hb; omega
  | succ k ih =>
    intro a b ha hb hj
    have h0 := hj 0 (by omega)
    rw [byteAt_eq, byteAt_eq] at h0
    simp only [Nat.pow_zero, Nat.div_one] at h0
    have ha2 : a / 256 < 256 ^ k := by
      rw [Nat.div_lt_iff_lt_mul (by norm_num)]
      calc a < 256 ^ (k + 1) := ha
      _ = 256 ^ k * 256 := Nat.pow_succ ..
    have hb2 : b / 256 < 256 ^ k := by
      rw [Nat.div_lt_iff_lt_mul (by norm_num)]
      calc b < 256 ^ (k + 1) := hb
      _ = 256 ^ k * 256 := Nat.pow_succ ..
    have heq : a / 256 = b / 256 := by
      apply ih _ _ ha2 hb2
      intro j hjk
      have hthis := hj (j + 1) (by omega)
      rw [byteAt_eq, byteAt_eq] at hthis
      rw [byteAt_eq, byteAt_eq]
      rw [show (256:Nat) ^ (j + 1) = 256 * 256 ^ j by rw [Nat.pow_succ]; ring] at hthis
      rw [← Nat.div_div_eq_div_mul, ← Nat.div_div_eq_div_mul] at hthis
      exact hthis
    have hda := Nat.div_add_mod a 256
    have hdb := Nat.div_add_mod b 256
    omega

/-!
## Structural facts about the move generator
-/

theorem legalMoves_subset {b : Board} {m : Move} (h : m ∈ legalMoves b) : m ∈ pseudoMoves b := by
  unfold legalMoves at h
  exact (List.mem_filter.mp h).1

theorem mem_ite_singleton {α : Type _} {P : Prop} [Decidable P] {x m : α}
    (h : m ∈ (if P then [x] else ([] : List α))) : m = x ∧ P := by
  split at h
  · next hp =>
    simp only [List.mem_singleton] at h
    exact ⟨h, hp⟩
  · simp at h

theorem mem_promoExpand {col : Color} {fr fc tr tc : Nat} {m : Move}
    (h : m ∈ promoExpand col fr fc tr tc) :
    m.fromRow = fr ∧ m.fromCol = fc ∧ m.toRow = tr ∧ m.toCol = tc ∧
    m.isEnPassant = false ∧ m.isCastling = false ∧
    ((tr = promoRow col ∧ validPromo m.promotion = true) ∨
      (tr ≠ promoRow col ∧ m.promotion = none)) := by
  unfold promoExpand at h
  split at h
  · next hp =>
    simp only [promoKinds, List.map_cons, List.map_nil, List.mem_cons, List.not_mem_nil,
      or_false, mkMove] at h
    rcases h with h | h | h | h <;> subst h <;> simp_all [validPromo]
  · next hp =>
    simp only [mkMove, List.mem_singleton] at h
    subst h
    simp_all

theorem mem_pawnForward {b : Board} {col : Color} {r c : Nat} {m : Move}
    (h : m ∈ pawnForward b col r c) :
    m.fromRow = r ∧ m.fromCol = c ∧ m.isEnPassant = false ∧ m.isCastling = false ∧
    (m.toRow = promoRow col → validPromo m.promotion = true) := by
  unfold pawnForward at h
  rcases hstep : pawnStep col r with _ | r1
  all_goals rw [hstep] at h
  · simp at h
  dsimp only at h
  by_cases hempty : emptyCode (b.code r1 c) = true
  · rw [if_pos hempty] at h
    rcases List.mem_append.mp h with h1 | h1
    · obtain ⟨e1, e2, e3, _, e5, e6, hd⟩ := mem_promoExpand h1
      refine ⟨e1, e2, e5, e6, fun hlast => ?_⟩
      rcases hd with ⟨_, hv⟩ | ⟨hne, _⟩
      · exact hv
      · exact absurd (e3 ▸ hlast) hne
    · rcases hs2 : pawnStep col r1 with _ | r2
      all_goals rw [hs2] at h1
      · simp at h1
      dsimp only at h1
      by_cases hhome : r = pawnHomeRow col ∧ emptyCode (b.code r2 c) = true
      · rw [if_pos hhome] at h1
        simp only [mkMove, List.mem_singleton] at h1
        subst h1
        refine ⟨rfl, rfl, rfl, rfl, fun hlast => ?_⟩
        exfalso
        have hr := hhome.1
        revert hstep hs2 hlast
        cases col <;> simp_all [pawnStep, pawnHomeRow, promoRow] <;> omega
      · rw [if_neg hhome] at h1
        simp at h1
  · rw [if_neg hempty] at h
    simp at h

theorem mem_pawnCaptureAt {b : Board} {col : Color} {r c r1 c1 : Nat} {m : Move}
    (h : m ∈ pawnCaptureAt b col r c r1 c1) :
    m.fromRow = r ∧ m.fromCol = c ∧ m.isCastling = false ∧
    ((m.isEnPassant = false ∧ (m.toRow = promoRow col → validPromo m.promotion = true)) ∨
      (m.isEnPassant = true ∧ m.promotion = none ∧
        b.enPassantTarget = some (m.toRow, m.toCol))) := by
  unfold pawnCaptureAt at h
  dsimp only at h
  by_cases hcap : colCode (b.code r1 c1) col.opposite = true
  · rw [if_pos hcap] at h
    obtain ⟨e1, e2, e3, _, e5, e6, hd⟩ := mem_promoExpand h
    refine ⟨e1, e2, e6, .inl ⟨e5, fun hlast => ?_⟩⟩
    rcases hd with ⟨_, hv⟩ | ⟨hne, _⟩
    · exact hv
    · exact absurd (e3 ▸ hlast) hne
  · rw [if_neg hcap] at h
    by_cases hep : emptyCode (b.code r1 c1) = true ∧ b.enPassantTarget = some (r1, c1)
    · rw [if_pos hep] at h
      simp only [mkMove, List.mem_singleton] at h
      subst h
      exact ⟨rfl, rfl, rfl, .inr ⟨rfl, rfl, hep.2⟩⟩
    · rw [if_neg hep] at h
      simp at h

theorem mem_pawnCapture {b : Board} {col : Color} {r c : Nat} {right : Bool} {m : Move}
    (h : m ∈ pawnCapture b col r c right) :
    m.fromRow = r ∧ m.fromCol = c ∧ m.isCastling = false ∧
    ((m.isEnPassant = false ∧ (m.toRow = promoRow col → validPromo m.promotion = true)) ∨
      (m.isEnPassant = true ∧ m.promotion = none ∧
        b.enPassantTarget = some (m.toRow, m.toCol))) := by
  unfold pawnCapture at h
  rcases hstep : pawnStep col r with _ | r1
  all_goals rw [hstep] at h
  · simp at h
  cases right
  all_goals dsimp only at h
  all_goals
    split at h
    rotate_left
    · simp at h
  all_goals exact mem_pawnCaptureAt h

theorem mem_pawnMoves {b : Board} {col : Color} {r c : Nat} {m : Move}
    (h : m ∈ pawnMoves b col r c) :
    m.fromRow = r ∧ m.fromCol = c ∧ m.isCastling = false ∧
    ((m.isEnPassant = false ∧ (m.toRow = promoRow col → validPromo m.promotion = true)) ∨
      (m.isEnPassant = true ∧ m.promotion = none ∧
        b.enPassantTarget = some (m.toRow, m.toCol))) := by
  unfold pawnMoves at h
  rcases List.mem_append.mp h with h1 | h1
  · rcases List.mem_append.mp h1 with h2 | h2
    · have := mem_pawnForward h2
      exact ⟨this.1, this.2.1, this.2.2.2.1, .inl ⟨this.2.2.1, this.2.2.2.2⟩⟩
    · exact mem_pawnCapture h2
  · exact mem_pawnCapture h1

theorem mem_stepMoves {b : Board} {col : Color} {r c : Nat} {hops : List (Nat × Nat)} {m : Move}
    (h : m ∈ stepMoves b col r c hops) :
    m.fromRow = r ∧ m.fromCol = c ∧ m.promotion = none ∧
    m.isEnPassant = false ∧ m.isCastling = false := by
  unfold stepMoves at h
  rcases List.mem_filterMap.mp h with ⟨s, _, hs⟩
  split at hs
  · exact absurd hs (by simp)
  · simp only [mkMove, Option.some.injEq] at hs
    subst hs
    exact ⟨rfl, rfl, rfl, rfl, rfl⟩

theorem mem_rayMoves {b : Board} {col : Color} {fr fc : Nat} {d : Dir} {r c : Nat} {n : Nat}
    {m : Move} (h : m ∈ rayMoves b col fr fc d r c n) :
    m.fromRow = fr ∧ m.fromCol = fc ∧ m.promotion = none ∧
    m.isEnPassant = false ∧ m.isCastling = false := by
  induction n generalizing r c with
  | zero => simp [rayMoves] at h
  | succ k ih =>
    unfold rayMoves at h
    rcases hstep : Dir.step d r c with _ | s
    all_goals rw [hstep] at h
    · simp at h
    dsimp only at h
    split at h
    case _ =>
      rcases List.mem_cons.mp h with h1 | h1
      · subst h1
        exact ⟨rfl, rfl, rfl, rfl, rfl⟩
      · exact ih h1
    case _ =>
      split at h
      case _ =>
        simp only [mkMove, List.mem_singleton] at h
        subst h
        exact ⟨rfl, rfl, rfl, rfl, rfl⟩
      case _ => simp at h

theorem mem_slideMoves {b : Board} {col : Color} {r c : Nat} {dirs : List Dir} {m : Move}
    (h : m ∈ slideMoves b col r c dirs) :
    m.fromRow = r ∧ m.fromCol = c ∧ m.promotion = none ∧
    m.isEnPassant = false ∧ m.isCastling = false := by
  unfold slideMoves at h
  rcases List.mem_flatMap.mp h with ⟨d, _, hd⟩
  exact mem_rayMoves hd

theorem mem_castleSide {b : Board} {col : Color} {ks : Bool} {m : Move}
    (h : m ∈ castleSide b col ks) :
    m.fromRow = homeRow col ∧ m.fromCol = 4 ∧ m.promotion = none ∧
    m.isEnPassant = false ∧ m.isCastling = true ∧
    unmovedAt b col .King (homeRow col) 4 = true := by
  unfold castleSide at h
  cases ks
  all_goals
    dsimp only at h
    obtain ⟨hm, hcond⟩ := mem_ite_singleton h
    subst hm
    simp only [Bool.and_eq_true] at hcond
    exact ⟨rfl, rfl, rfl, rfl, rfl, hcond.1.1.1.1.2⟩

theorem decodePiece_of_colCode {v : Nat} {a : Color} (h : colCode v a = true) :
    ∃ p : Piece, decodePiece v = some p ∧ p.color = a := by
  unfold colCode at h
  simp only [Bool.and_eq_true, decide_eq_true_eq] at h
  unfold decodePiece
  rw [if_neg h.1]
  refine ⟨_, rfl, ?_⟩
  cases a
  · rw [if_pos (by simpa [Color.code] using h.2)]
  · rw [if_neg (by simp [Color.code] at h; omega)]

theorem unmovedAt_pieceAt {b : Board} {col : Color} {k : Kind} {r c : Nat}
    (h : unmovedAt b col k r c = true) : b.pieceAt r c = some ⟨col, k, false⟩ := by
  unfold unmovedAt at h
  simp only [decide_eq_true_eq] at h
  unfold Board.pieceAt
  rw [h]
  cases col <;> cases k <;> decide

theorem pseudo_from_occupied {b : Board} {m : Move} (h : m ∈ pseudoMoves b) :
    ∃ p : Piece, b.pieceAt m.fromRow m.fromCol = some p ∧ p.color = b.turn := by
  unfold pseudoMoves at h
  rcases List.mem_flatMap.mp h with ⟨s, _, hm⟩
  dsimp only at hm
  by_cases hc : colCode (b.code s.1 s.2) b.turn = true
  · rw [if_pos hc] at hm
    obtain ⟨p, hp, hpc⟩ := decodePiece_of_colCode hc
    have hfrom : b.pieceAt s.1 s.2 = some p := hp
    cases hk : kindOfCode (b.code s.1 s.2 % 8)
    all_goals rw [hk] at hm
    case _ =>
      obtain ⟨e1, e2, -⟩ := mem_pawnMoves hm
      exact ⟨p, by rw [e1, e2]; exact hfrom, hpc⟩
    case _ =>
      obtain ⟨e1, e2, -⟩ := mem_stepMoves hm
      exact ⟨p, by rw [e1, e2]; exact hfrom, hpc⟩
    case _ =>
      obtain ⟨e1, e2, -⟩ := mem_slideMoves hm
      exact ⟨p, by rw [e1, e2]; exact hfrom, hpc⟩
    case _ =>
      obtain ⟨e1, e2, -⟩ := mem_slideMoves hm
      exact ⟨p, by rw [e1, e2]; exact hfrom, hpc⟩
    case _ =>
      obtain ⟨e1, e2, -⟩ := mem_slideMoves hm
      exact ⟨p, by rw [e1, e2]; exact hfrom, hpc⟩
    case _ =>
      rcases List.mem_append.mp hm with h1 | h1
      · rcases List.mem_append.mp h1 with h2 | h2
        · obtain ⟨e1, e2, -⟩ := mem_stepMoves h2
          exact ⟨p, by rw [e1, e2]; exact hfrom, hpc⟩
        · obtain ⟨e1, e2, -, -, -, hk⟩ := mem_castleSide h2
          exact ⟨⟨b.turn, .King, false⟩, by rw [e1, e2]; exact unmovedAt_pieceAt hk, rfl⟩
      · obtain ⟨e1, e2, -, -, -, hk⟩ := mem_castleSide h1
        exact ⟨⟨b.turn, .King, false⟩, by rw [e1, e2]; exact unmovedAt_pieceAt hk, rfl⟩
  · rw [if_neg hc] at hm
    simp at hm

theorem execMove_turn {b : Board} {m : Move} {p : Piece}
    (h : b.pieceAt m.fromRow m.fromCol = some p) :
    (execMove b m).turn = b.turn.opposite := by
  unfold execMove
  rw [h]

/-- Claim C1, amended: `applyMove` fails exactly on the moves absent from
`legalMoves`; the failure is `IllegalMoveError` unless the move is a pawn
move to the last rank without a valid promotion kind, in which case it is
`InvalidPromotionError`; either way the error is a structured
`Except.error` value returned to the caller. -/
theorem C1_amended (b : Board) (m : Move) :
    ((∃ b', applyMove b m = .ok b') ↔ m ∈ legalMoves b) ∧
    (applyMove b m = .error .IllegalMoveError ↔
      m ∉ legalMoves b ∧ ¬(pawnToLastRank b m = true ∧ validPromo m.promotion = false)) ∧
    (applyMove b m = .error .InvalidPromotionError ↔
      m ∉ legalMoves b ∧ pawnToLastRank b m = true ∧ validPromo m.promotion = false) := by
  unfold applyMove
  split_ifs with h1 h2
  · simp [h1]
  · simp_all
  · simp_all

/-!
## Claim C2: legal moves apply successfully and flip the turn
-/

/-- Claim C2: for every board and every move of `legalMoves(board)`,
`applyMove` succeeds (returning the executed board) and the resulting
board's `turn` is the opposite colour. -/
theorem C2_legal_apply_turn (b : Board) (m : Move) (h : m ∈ legalMoves b) :
    applyMove b m = .ok (execMove b m) ∧ (execMove b m).turn = b.turn.opposite := by
  constructor
  · unfold applyMove
    rw [if_pos h]
  · obtain ⟨p, hp, -⟩ := pseudo_from_occupied (legalMoves_subset h)
    exact execMove_turn hp

/-- Claim C2, witness: the double pawn advance a2-a4 from the initial
position is legal, applies successfully, and hands the move to Black. -/
theorem C2_witness :
    (⟨6, 0, 4, 0, none, false, false⟩ : Move) ∈ legalMoves initialBoard ∧
    (applyMove initialBoard ⟨6, 0, 4, 0, none, false, false⟩ =
      .ok (execMove initialBoard ⟨6, 0, 4, 0, none, false, false⟩) ∧
    (execMove initialBoard ⟨6, 0, 4, 0, none, false, false⟩).turn =
      initialBoard.turn.opposite) := by
  have hm : (⟨6, 0, 4, 0, none, false, false⟩ : Move) ∈ legalMoves initialBoard := by decide
  exact ⟨hm, C2_legal_apply_turn initialBoard _ hm⟩

/-!
## Claim C4: promotion handling
-/

theorem encode_lt (p : Piece) : p.encode < 256 := by
  cases p with
  | mk pc pk pm => cases pc <;> cases pk <;> cases pm <;> decide

theorem decode_encode (p : Piece) : decodePiece p.encode = some p := by
  cases p with
  | mk pc pk pm => cases pc <;> cases pk <;> cases pm <;> decide

theorem decode_kind {v : Nat} {p : Piece} (h : decodePiece v = some p) :
    kindOfCode (v % 8) = p.kind := by
  unfold decodePiece at h
  dsimp only at h
  split at h
  · exact absurd h (by simp)
  · next hv =>
    simp only [Option.some.injEq] at h
    subst h
    unfold kindOfCode
    rfl

theorem setSq_code_self {b : Board} {r c v : Nat} (hv : v < 256) :
    (b.setSq r c v).code r c = v := by
  unfold Board.setSq Board.code
  exact byteAt_set_self _ _ hv

theorem setSq_code_ne {b : Board} {r c r1 c1 v : Nat} (hv : v < 256)
    (hne : sqIdx r1 c1 ≠ sqIdx r c) : (b.setSq r c v).code r1 c1 = b.code r1 c1 := by
  unfold Board.setSq Board.code
  exact byteAt_set_ne _ hne hv

theorem pseudo_promo_flags {b : Board} {m : Move} (h : m ∈ pseudoMoves b) {k : Kind}
    (hk : m.promotion = some k) : m.isEnPassant = false ∧ m.isCastling = false := by
  unfold pseudoMoves at h
  rcases List.mem_flatMap.mp h with ⟨s, _, hm⟩
  dsimp only at hm
  by_cases hc : colCode (b.code s.1 s.2) b.turn = true
  · rw [if_pos hc] at hm
    cases hkk : kindOfCode (b.code s.1 s.2 % 8)
    all_goals rw [hkk] at hm
    case _ =>
      obtain ⟨-, -, hcs, hd⟩ := mem_pawnMoves hm
      rcases hd with ⟨hef, -⟩ | ⟨-, hpn, -⟩
      · exact ⟨hef, hcs⟩
      · rw [hpn] at hk; cases hk
    case _ =>
      obtain ⟨-, -, -, he, hcs⟩ := mem_stepMoves hm
      exact ⟨he, hcs⟩
    case _ =>
      obtain ⟨-, -, -, he, hcs⟩ := mem_slideMoves hm
      exact ⟨he, hcs⟩
    case _ =>
      obtain ⟨-, -, -, he, hcs⟩ := mem_slideMoves hm
      exact ⟨he, hcs⟩
    case _ =>
      obtain ⟨-, -, -, he, hcs⟩ := mem_slideMoves hm
      exact ⟨he, hcs⟩
    case _ =>
      rcases List.mem_append.mp hm with h1 | h1
      · rcases List.mem_append.mp h1 with h2 | h2
        · obtain ⟨-, -, -, he, hcs⟩ := mem_stepMoves h2
          exact ⟨he, hcs⟩
        · obtain ⟨-, -, hpn, -⟩ := mem_castleSide h2
          rw [hpn] at hk; cases hk
      · obtain ⟨-, -, hpn, -⟩ := mem_castleSide h1
        rw [hpn] at hk; cases hk
  · rw [if_neg hc] at hm
    simp at hm

theorem legal_pawnLast_validPromo {b : Board} {m : Move} (hep : epOk b)
    (h : m ∈ pseudoMoves b) (hpl : pawnToLastRank b m = true) :
    validPromo m.promotion = true := by
  have hocc := pseudo_from_occupied h
  obtain ⟨p, hp, hpc⟩ := hocc
  unfold pawnToLastRank at hpl
  rw [hp] at hpl
  simp only [decide_eq_true_eq] at hpl
  unfold pseudoMoves at h
  rcases List.mem_flatMap.mp h with ⟨s, _, hm⟩
  dsimp only at hm
  by_cases hc : colCode (b.code s.1 s.2) b.turn = true
  swap
  · rw [if_neg hc] at hm; simp at hm
  rw [if_pos hc] at hm
  obtain ⟨q, hq, hqc⟩ := decodePiece_of_colCode hc
  cases hkc : kindOfCode (b.code s.1 s.2 % 8)
  all_goals rw [hkc] at hm
  case _ =>
    obtain ⟨e1, e2, -, hd⟩ := mem_pawnMoves hm
    rcases hd with ⟨-, himpl⟩ | ⟨-, -, hept⟩
    · apply himpl
      rw [hpl.2, hpc]
    · -- an en-passant capture cannot reach the last rank when epOk holds
      exfalso
      unfold epOk at hep
      rw [hept] at hep
      have hplast := hpl.2
      rcases hpb : p.color
      all_goals rw [hpb] at hplast
      · simp only [promoRow] at hplast; omega
      · simp only [promoRow] at hplast; omega
  case _ =>
    obtain ⟨e1, e2, -⟩ := mem_stepMoves hm
    exfalso
    have : b.pieceAt m.fromRow m.fromCol = some q := by rw [e1, e2]; exact hq
    rw [this] at hp
    have hqp : q = p := Option.some.inj hp
    have := decode_kind hq
    rw [hkc, hqp] at this
    rw [← this] at hpl
    cases hpl.1
  case _ =>
    obtain ⟨e1, e2, -⟩ := mem_slideMoves hm
    exfalso
    have : b.pieceAt m.fromRow m.fromCol = some q := by rw [e1, e2]; exact hq
    rw [this] at hp
    have hqp : q = p := Option.some.inj hp
    have := decode_kind hq
    rw [hkc, hqp] at this
    rw [← this] at hpl
    cases hpl.1
  case _ =>
    obtain ⟨e1, e2, -⟩ := mem_slideMoves hm
    exfalso
    have : b.pieceAt m.fromRow m.fromCol = some q := by rw [e1, e2]; exact hq
    rw [this] at hp
    have hqp : q = p := Option.some.inj hp
    have := decode_kind hq
    rw [hkc, hqp] at this
    rw [← this] at hpl
    cases hpl.1
  case _ =>
    obtain ⟨e1, e2, -⟩ := mem_slideMoves hm
    exfalso
    have : b.pieceAt m.fromRow m.fromCol = some q := by rw [e1, e2]; exact hq
    rw [this] at hp
    have hqp : q = p := Option.some.inj hp
    have := decode_kind hq
    rw [hkc, hqp] at this
    rw [← this] at hpl
    cases hpl.1
  case _ =>
    exfalso
    have hking : b.pieceAt m.fromRow m.fromCol = some ⟨b.turn, .King, false⟩ ∨
        (∃ q2, b.pieceAt m.fromRow m.fromCol = some q2 ∧ q2.kind = kindOfCode (b.code s.1 s.2 % 8)) := by
      rcases List.mem_append.mp hm with h1 | h1
      · rcases List.mem_append.mp h1 with h2 | h2
        · obtain ⟨e1, e2, -⟩ := mem_stepMoves h2
          refine .inr ⟨q, ?_, (decode_kind hq).symm⟩
          rw [e1, e2]; exact hq
        · obtain ⟨e1, e2, -, -, -, hk2⟩ := mem_castleSide h2
          refine .inl ?_
          rw [e1, e2]; exact unmovedAt_pieceAt hk2
      · obtain ⟨e1, e2, -, -, -, hk2⟩ := mem_castleSide h1
        refine .inl ?_
        rw [e1, e2]; exact unmovedAt_pieceAt hk2
    rcases hking with hk1 | ⟨q2, hq2, hq2k⟩
    · rw [hk1] at hp
      have := Option.some.inj hp
      rw [← this] at hpl
      cases hpl.1
    · rw [hq2] at hp
      have := Option.some.inj hp
      rw [this] at hq2k
      rw [hkc] at hq2k
      exact absurd (hq2k.symm.trans hpl.1) (by decide)

/-- Claim C4, counterexample: on `checkedPromoBoard` (White king in check
from a rook) the pawn move a7-a8 with the valid promotion kind Queen still
fails, and with `IllegalMoveError`, refuting the claim's unconditional
success clause. -/
theorem C4_counterexample :
    pawnToLastRank checkedPromoBoard ⟨1, 0, 0, 0, some .Queen, false, false⟩ = true ∧
    validPromo (some Kind.Queen) = true ∧
    applyMove checkedPromoBoard ⟨1, 0, 0, 0, some .Queen, false, false⟩ =
      Except.error ApplyError.IllegalMoveError := by
  refine ⟨by decide, by decide, by decide⟩

/-- Claim C4, amended: for a board satisfying the §3 en-passant invariant
and a pawn move onto the last rank, an absent or invalid promotion kind
makes `applyMove` fail with `InvalidPromotionError`; when the promotion
kind is one of the four admissible kinds and the move is legal, it
succeeds and the arrival square holds the moving side's piece of the
chosen kind. -/
theorem C4_amended (b : Board) (m : Move) (hep : epOk b)
    (hpl : pawnToLastRank b m = true) :
    (validPromo m.promotion = false → applyMove b m = .error .InvalidPromotionError) ∧
    (∀ k : Kind, m.promotion = some k → m ∈ legalMoves b →
      applyMove b m = .ok (execMove b m) ∧
      (execMove b m).pieceAt m.toRow m.toCol = some ⟨b.turn, k, true⟩) := by
  constructor
  · intro hinv
    have hnl : m ∉ legalMoves b := by
      intro hl
      have := legal_pawnLast_validPromo hep (legalMoves_subset hl) hpl
      rw [this] at hinv
      cases hinv
    unfold applyMove
    rw [if_neg hnl, if_pos (by rw [hpl, hinv]; exact ⟨rfl, rfl⟩)]
  · intro k hk hl
    have hflags := pseudo_promo_flags (legalMoves_subset hl) hk
    obtain ⟨p, hp, hpc⟩ := pseudo_from_occupied (legalMoves_subset hl)
    constructor
    · unfold applyMove
      rw [if_pos hl]
    · unfold execMove
      rw [hp]
      dsimp only
      rw [hflags.1, hflags.2]
      simp only [Bool.false_eq_true, if_false]
      show ((b.setSq m.fromRow m.fromCol 0).setSq m.toRow m.toCol
        (Piece.encode ⟨p.color, m.promotion.getD p.kind, true⟩)).pieceAt m.toRow m.toCol = _
      unfold Board.pieceAt
      rw [setSq_code_self (encode_lt _), hk]
      simp only [Option.getD_some]
      rw [decode_encode, hpc]

/-- Claim C4, witness: on `promoPushBoard` the push a7-a8=Q is legal and the
amended claim applies — the move succeeds and a8 then holds a White queen. -/
theorem C4_witness :
    epOk promoPushBoard ∧
    pawnToLastRank promoPushBoard ⟨1, 0, 0, 0, some .Queen, false, false⟩ = true ∧
    (⟨1, 0, 0, 0, some .Queen, false, false⟩ : Move) ∈ legalMoves promoPushBoard ∧
    (applyMove promoPushBoard ⟨1, 0, 0, 0, some .Queen, false, false⟩ =
      .ok (execMove promoPushBoard ⟨1, 0, 0, 0, some .Queen, false, false⟩) ∧
    (execMove promoPushBoard ⟨1, 0, 0, 0, some .Queen, false, false⟩).pieceAt 0 0 =
      some ⟨promoPushBoard.turn, .Queen, true⟩) := by
  have h := C4_amended promoPushBoard ⟨1, 0, 0, 0, some .Queen, false, false⟩
    (by decide) (by decide)
  have hl : (⟨1, 0, 0, 0, some .Queen, false, false⟩ : Move) ∈ legalMoves promoPushBoard := by
    decide
  exact ⟨by decide, by decide, hl, h.2 .Queen rfl hl⟩

/-!
## Claim C3: classification precedence
-/

/-- Claim C3: `classify` realises exactly the specified precedence — each
status holds precisely under its guard with every earlier guard failing:
Checkmate and Stalemate on an empty legal-move set (split by check), then
the fifty-move rule at a halfmove clock of 100, then insufficient mating
material, then threefold repetition of the exact position in the history,
then Check, else Ongoing. -/
theorem C3_classify_precedence (b : Board)
    (hist : List (Nat × Color × CastlingRights × Option (Nat × Nat))) :
    (classify b hist = .Checkmate ↔ legalMoves b = [] ∧ b.inCheck b.turn = true) ∧
    (classify b hist = .Stalemate ↔ legalMoves b = [] ∧ b.inCheck b.turn = false) ∧
    (classify b hist = .DrawFiftyMove ↔ legalMoves b ≠ [] ∧ 100 ≤ b.halfmoveClock) ∧
    (classify b hist = .DrawInsufficientMaterial ↔
      legalMoves b ≠ [] ∧ b.halfmoveClock < 100 ∧ insufficientMaterial b = true) ∧
    (classify b hist = .DrawRepetition ↔
      legalMoves b ≠ [] ∧ b.halfmoveClock < 100 ∧ insufficientMaterial b = false ∧
      3 ≤ hist.count (positionKey b)) ∧
    (classify b hist = .Check ↔
      legalMoves b ≠ [] ∧ b.halfmoveClock < 100 ∧ insufficientMaterial b = false ∧
      hist.count (positionKey b) < 3 ∧ b.inCheck b.turn = true) ∧
    (classify b hist = .Ongoing ↔
      legalMoves b ≠ [] ∧ b.halfmoveClock < 100 ∧ insufficientMaterial b = false ∧
      hist.count (positionKey b) < 3 ∧ b.inCheck b.turn = false) := by
  unfold classify
  split_ifs with h1 h2 h3 h4 h5 h6
  all_goals
    rw [List.isEmpty_iff] at *
    refine ⟨?_, ?_, ?_, ?_, ?_, ?_, ?_⟩
  all_goals simp_all

/-!
## Claim C7: root-search determinism
-/

theorem betterEntry_true_iff (x y : Nat × Move × Int) :
    betterEntry x y = true ↔ (y.2.2 < x.2.2 ∨ (x.2.2 = y.2.2 ∧ x.1 < y.1)) := by
  simp [betterEntry, Bool.or_eq_true, Bool.and_eq_true, decide_eq_true_eq]

theorem betterEntry_false_iff (x y : Nat × Move × Int) :
    betterEntry x y = false ↔ ¬(y.2.2 < x.2.2 ∨ (x.2.2 = y.2.2 ∧ x.1 < y.1)) := by
  rw [← Bool.not_eq_true, betterEntry_true_iff]

theorem betterEntry_trans {x y z : Nat × Move × Int} (h1 : betterEntry x y = true)
    (h2 : betterEntry y z = true) : betterEntry x z = true := by
  rw [betterEntry_true_iff] at *
  omega

theorem betterEntry_asymm {x y : Nat × Move × Int} (h : betterEntry x y = true) :
    betterEntry y x = false := by
  rw [betterEntry_true_iff] at h
  rw [betterEntry_false_iff]
  omega

theorem betterEntry_total {x y : Nat × Move × Int} (hne : x.1 ≠ y.1) :
    betterEntry x y = true ∨ betterEntry y x = true := by
  rw [betterEntry_true_iff, betterEntry_true_iff]
  omega

theorem betterEntry_irrefl (x : Nat × Move × Int) : betterEntry x x = false := by
  rw [betterEntry_false_iff]
  omega

/-- The fold underlying `pickBest` returns a member that no element of the
list beats. -/
theorem pickBest_spec : ∀ (l : List (Nat × Move × Int)) (acc : Option (Nat × Move × Int)),
    (∀ a, acc = some a → ∀ e,
      l.foldl (fun acc e =>
        match acc with
        | none => some e
        | some a => if betterEntry e a then some e else some a) acc = some e →
      (e = a ∨ e ∈ l) ∧ (betterEntry a e = false) ∧ ∀ x ∈ l, betterEntry x e = false) ∧
    (acc = none → ∀ e,
      l.foldl (fun acc e =>
        match acc with
        | none => some e
        | some a => if betterEntry e a then some e else some a) acc = some e →
      e ∈ l ∧ ∀ x ∈ l, betterEntry x e = false) := by
  intro l
  induction l with
  | nil =>
    intro acc
    constructor
    · intro a ha e he
      simp only [List.foldl_nil] at he
      rw [ha] at he
      have : e = a := by cases he; rfl
      subst this
      exact ⟨.inl rfl, betterEntry_irrefl e, by simp⟩
    · intro ha e he
      rw [ha] at he
      simp at he
  | cons hd tl ih =>
    intro acc
    constructor
    · intro a ha e he
      rw [ha] at he
      simp only [List.foldl_cons] at he
      by_cases hb : betterEntry hd a = true
      · rw [if_pos hb] at he
        obtain ⟨hmem, hbe, hall⟩ := (ih (some hd)).1 hd rfl e he
        refine ⟨?_, ?_, ?_⟩
        · rcases hmem with h | h
          · exact .inr (h ▸ List.mem_cons_self hd tl)
          · exact .inr (List.mem_cons_of_mem hd h)
        · -- a does not beat e: either e = hd (then a doesn't beat hd by asymm)
          -- or e beats hd... we know hd does not beat e, and hd beats a
          rcases Decidable.eq_or_ne a.1 e.1 with hidx | hidx
          · -- same index: show a cannot beat e via score ordering
            rw [betterEntry_true_iff] at hb
            rw [betterEntry_false_iff] at hbe ⊢
            omega
          · rcases betterEntry_total hidx with h | h
            · -- a beats e; then since hd beats a, hd beats e, contradiction
              exfalso
              have := betterEntry_trans hb h
              rw [this] at hbe
              cases hbe
            · exact betterEntry_asymm h
        · intro x hx
          rcases List.mem_cons.mp hx with h | h
          · subst h; exact hbe
          · exact hall x h
      · rw [if_neg hb] at he
        have hbf : betterEntry hd a = false := by
          cases hfb : betterEntry hd a
          · rfl
          · exact absurd hfb hb
        obtain ⟨hmem, hbe, hall⟩ := (ih (some a)).1 a rfl e he
        refine ⟨?_, hbe, ?_⟩
        · rcases hmem with h | h
          · exact .inl h
          · exact .inr (List.mem_cons_of_mem hd h)
        · intro x hx
          rcases List.mem_cons.mp hx with h | h
          · subst h
            -- hd does not beat a, a does not beat e ⇒ hd does not beat e
            cases hbx : betterEntry x e
            · rfl
            · exfalso
              rcases Decidable.eq_or_ne x.1 a.1 with hidx | hidx
              · -- same index: contradiction via scores
                rw [betterEntry_false_iff] at hbf hbe
                rw [betterEntry_true_iff] at hbx
                omega
              · rcases betterEntry_total hidx with h2 | h2
                · rw [h2] at hbf; cases hbf
                · -- a beats x, x beats e ⇒ a beats e, contradiction
                  have := betterEntry_trans h2 hbx
                  rw [this] at hbe
                  cases hbe
          · exact hall x h
    · intro ha e he
      rw [ha] at he
      simp only [List.foldl_cons] at he
      obtain ⟨hmem, hbe, hall⟩ := (ih (some hd)).1 hd rfl e he
      refine ⟨?_, ?_⟩
      · rcases hmem with h | h
        · exact h ▸ List.mem_cons_self hd tl
        · exact List.mem_cons_of_mem hd h
      · intro x hx
        rcases List.mem_cons.mp hx with h | h
        · subst h; exact hbe
        · exact hall x h

theorem pickBest_none_iff (l : List (Nat × Move × Int)) : pickBest l = none ↔ l = [] := by
  constructor
  · intro h
    cases l with
    | nil => rfl
    | cons hd tl =>
      exfalso
      unfold pickBest at h
      simp only [List.foldl_cons] at h
      -- folding from some never returns none
      have : ∀ (t : List (Nat × Move × Int)) (a : Nat × Move × Int),
          t.foldl (fun acc e =>
            match acc with
            | none => some e
            | some a => if betterEntry e a then some e else some a) (some a) ≠ none := by
        intro t
        induction t with
        | nil => intro a hc; cases hc
        | cons h2 t2 ih2 =>
          intro a
          simp only [List.foldl_cons]
          split <;> exact ih2 _
      exact this tl hd h
  · intro h; subst h; rfl

theorem pickBest_mem_dominant {l : List (Nat × Move × Int)} {e : Nat × Move × Int}
    (h : pickBest l = some e) : e ∈ l ∧ ∀ x ∈ l, betterEntry x e = false :=
  (pickBest_spec l none).2 rfl e h

theorem pickBest_perm {l l' : List (Nat × Move × Int)}
    (hperm : l.Perm l') (hpw : l'.Pairwise (fun x y => x.1 ≠ y.1)) :
    pickBest l = pickBest l' := by
  cases h1 : pickBest l with
  | none =>
    rw [pickBest_none_iff] at h1
    subst h1
    have : l' = [] := hperm.symm.eq_nil
    subst this
    rfl
  | some e =>
    obtain ⟨hmem, hdom⟩ := pickBest_mem_dominant h1
    cases h2 : pickBest l' with
    | none =>
      rw [pickBest_none_iff] at h2
      subst h2
      exact absurd (hperm.mem_iff.mp hmem) (by simp)
    | some e' =>
      obtain ⟨hmem', hdom'⟩ := pickBest_mem_dominant h2
      have he'l : e' ∈ l := hperm.mem_iff.mpr hmem'
      have hel' : e ∈ l' := hperm.mem_iff.mp hmem
      have hne : betterEntry e e' = false := hdom' e hel'
      have hne' : betterEntry e' e = false := hdom e' he'l
      by_cases heq : e = e'
      · rw [heq]
      · exfalso
        have hidx : e.1 ≠ e'.1 := by
          intro hx
          have hsym : Symmetric (fun (x y : Nat × Move × Int) => x.1 ≠ y.1) :=
            fun x y h => h.symm
          exact hpw.forall hsym hel' hmem' heq hx
        rcases betterEntry_total hidx with h3 | h3
        · rw [h3] at hne; cases hne
        · rw [h3] at hne'; cases hne'


theorem rootScored_pairwise (b : Board) (d : Nat) :
    (rootScored b d).Pairwise (fun x y => x.1 ≠ y.1) := by
  unfold rootScored
  rw [List.pairwise_map]
  have h1 : ((legalMoves b).enum.map Prod.fst).Nodup := by
    rw [List.enum_map_fst]
    exact List.nodup_range _
  unfold List.Nodup at h1
  rw [List.pairwise_map] at h1
  exact h1

/-- Claim C7: the root aggregation of `search` is deterministic — whatever
order the per-root-move results arrive in (any permutation of the scored
root list), the aggregation picks the same entry, and `search`'s chosen
`bestMove` is exactly that of the generation-order aggregation; ties among
equal scores go to the earlier generation index. -/
theorem C7_search_deterministic (b : Board) (d : Nat) (l : List (Nat × Move × Int))
    (h : l.Perm (rootScored b d)) :
    pickBest l = pickBest (rootScored b d) ∧
    (search b d).bestMove = (pickBest (rootScored b d)).map (fun e => e.2.1) := by
  refine ⟨pickBest_perm h (rootScored_pairwise b d), ?_⟩
  unfold search
  cases hpb : pickBest (rootScored b d) <;> rfl

/-- Claim C7, witness: the depth-0 root results of the initial position,
arriving in reverse order, yield the same aggregation as generation order. -/
theorem C7_witness :
    ((rootScored initialBoard 0).reverse).Perm (rootScored initialBoard 0) ∧
    (pickBest ((rootScored initialBoard 0).reverse) = pickBest (rootScored initialBoard 0) ∧
    (search initialBoard 0).bestMove =
      (pickBest (rootScored initialBoard 0)).map (fun e => e.2.1)) := by
  have hp : ((rootScored initialBoard 0).reverse).Perm (rootScored initialBoard 0) :=
    List.reverse_perm _
  exact ⟨hp, C7_search_deterministic initialBoard 0 _ hp⟩

end Chess

/-!
## Frontend claims (C9, C10)
-/

namespace Frontend

/-- A move the ChessBoard component is allowed to hand to `onMove`: an
element of the `legalMoves` prop verbatim — and then the moving piece is
not a pawn headed for row 0 or 7 — or, exactly when the moving piece is a
pawn headed for row 0 or 7, such an element with one of the four modal
promotion letters substituted. -/
def emittedOk (p : BoardProps) (mv : FMove) : Prop :=
  ∃ m ∈ p.legalMovesP,
    (mv = m ∧
      ¬((getPiece p.board m.fromRowF m.fromColF).any (fun pc => pc.kind = 'P') = true ∧
        (m.toRowF = 0 ∨ m.toRowF = 7))) ∨
    ((getPiece p.board m.fromRowF m.fromColF).any (fun pc => pc.kind = 'P') = true ∧
     (m.toRowF = 0 ∨ m.toRowF = 7) ∧
     ∃ t ∈ promoChoices, mv = { m with promotionF := some t })

/-- Invariant on the parked promotion move: it is a legal pawn move to the
last rank. -/
def pendingOk (p : BoardProps) (st : BoardState) : Prop :=
  ∀ m, st.promotionMove = some m →
    m ∈ p.legalMovesP ∧
    (getPiece p.board m.fromRowF m.fromColF).any (fun pc => pc.kind = 'P') = true ∧
    (m.toRowF = 0 ∨ m.toRowF = 7)

theorem clickAsTarget_ok (p : BoardProps) (st : BoardState) (row col : Nat)
    (hst : pendingOk p st) :
    (∀ mv ∈ (clickAsTarget p st row col).2, emittedOk p mv) ∧
    pendingOk p (clickAsTarget p st row col).1 := by
  unfold clickAsTarget
  cases hsel : st.selectedSquare with
  | none => exact ⟨(fun _ hmv => nomatch hmv), hst⟩
  | some sel =>
    dsimp only
    cases hfind : p.legalMovesP.find? (matchesClick sel row col) with
    | none => exact ⟨(fun _ hmv => nomatch hmv), hst⟩
    | some m =>
      dsimp only
      have hmem : m ∈ p.legalMovesP := List.mem_of_find?_eq_some hfind
      have hpred : matchesClick sel row col m = true := List.find?_some hfind
      have hrow : m.toRowF = row := by
        unfold matchesClick at hpred
        simp only [Bool.and_eq_true, decide_eq_true_eq] at hpred
        exact hpred.1.2
      by_cases hcond :
          (getPiece p.board m.fromRowF m.fromColF).any (fun pc => pc.kind = 'P') = true
          ∧ (row = 0 ∨ row = 7)
      · rw [if_pos hcond]
        refine ⟨(fun _ hmv => nomatch hmv), ?_⟩
        intro m' hm'
        have hmm : m = m' := by simpa using hm'
        subst hmm
        exact ⟨hmem, hcond.1, by omega⟩
      · rw [if_neg hcond]
        refine ⟨?_, ?_⟩
        · intro mv hmv
          have hvm : mv = m := by simpa using hmv
          subst hvm
          exact ⟨mv, hmem, .inl ⟨rfl, fun hx => hcond ⟨hx.1, by omega⟩⟩⟩
        · intro m' hm'
          exact hst m' hm'

theorem stepEvent_ok (p : BoardProps) (st : BoardState) (e : FEvent)
    (hst : pendingOk p st) :
    (∀ mv ∈ (stepEvent p st e).2, emittedOk p mv) ∧
    pendingOk p (stepEvent p st e).1 := by
  cases e with
  | click row col =>
    show (∀ mv ∈ (handleSquareClick p st row col).2, emittedOk p mv) ∧
      pendingOk p (handleSquareClick p st row col).1
    unfold handleSquareClick
    by_cases hg : p.gameResult ≠ none ∨ p.isPlayerTurnP = false
    · rw [if_pos hg]
      exact ⟨(fun _ hmv => nomatch hmv), hst⟩
    · rw [if_neg hg]
      cases hpc : getPiece p.board row col with
      | none => exact clickAsTarget_ok p st row col hst
      | some pc =>
        dsimp only
        by_cases hc : pc.color = p.board.turn
        · rw [if_pos hc]
          exact ⟨(fun _ hmv => nomatch hmv), hst⟩
        · rw [if_neg hc]
          exact clickAsTarget_ok p st row col hst
  | promo i =>
    show (∀ mv ∈ (handlePromotionClick st (promoChoices.get ⟨i.1, i.2⟩)).2, emittedOk p mv) ∧
      pendingOk p (handlePromotionClick st (promoChoices.get ⟨i.1, i.2⟩)).1
    unfold handlePromotionClick
    cases hpm : st.promotionMove with
    | none => exact ⟨(fun _ hmv => nomatch hmv), hst⟩
    | some m =>
      dsimp only
      obtain ⟨hmem, hpawn, hrow⟩ := hst m hpm
      refine ⟨?_, ?_⟩
      · intro mv hmv
        have hvm : mv = { m with promotionF := some (promoChoices.get ⟨i.1, i.2⟩) } := by
          simpa using hmv
        subst hvm
        exact ⟨m, hmem, .inr ⟨hpawn, hrow, promoChoices.get ⟨i.1, i.2⟩,
          List.get_mem promoChoices i.1 i.2, rfl⟩⟩
      · intro m' hm'
        cases hm'

theorem runEvents_ok (p : BoardProps) :
    ∀ (evs : List FEvent) (st : BoardState), pendingOk p st →
      ∀ mv ∈ runEvents p evs st, emittedOk p mv := by
  intro evs
  induction evs with
  | nil => intro st _ mv hmv; cases hmv
  | cons e es ih =>
    intro st hst mv hmv
    simp only [runEvents, List.mem_append] at hmv
    obtain ⟨h1, h2⟩ := stepEvent_ok p st e hst
    rcases hmv with h | h
    · exact h1 mv h
    · exact ih _ h2 mv h

/-- **C9.** Over any sequence of clicks and promotion-modal choices starting
from the initial component state, every move the ChessBoard component passes
to `onMove` is an element of the `legalMoves` prop; when the moving piece is
a pawn and the destination row is 0 or 7, the bare element is never emitted —
the move is withheld until a modal choice arrives and is then emitted with a
promotion letter from {Q, R, B, N} substituted; a click pair matching no
legal move never invokes `onMove`. -/
theorem C9_clicks_emit_only_legal (p : BoardProps) (evs : List FEvent) (mv : FMove)
    (hmv : mv ∈ runEvents p evs initBoardState) : emittedOk p mv :=
  runEvents_ok p evs initBoardState (fun _ hm => by cases hm) mv hmv

def wBoard : FBoard :=
  ⟨List.replicate 8 none ++ some ⟨.white, 'P', true⟩ :: List.replicate 55 none, .white⟩

def wMove : FMove := ⟨1, 0, 0, 0, none, false, false⟩

def wProps : BoardProps := ⟨wBoard, [wMove], true, none⟩

def wEvents : List FEvent := [.click 1 0, .click 0 0, .promo ⟨0, by decide⟩]

theorem C9_witness :
    ({ wMove with promotionF := some "Q" } ∈ runEvents wProps wEvents initBoardState) ∧
    emittedOk wProps { wMove with promotionF := some "Q" } :=
  ⟨by decide, C9_clicks_emit_only_legal wProps wEvents _ (by decide)⟩

/-- **C10.** `handleMove` of the multiplayer client produces an outbound
frame only when a game state exists, the connection flag is up and the
board's turn equals the assigned player colour, and only while the socket's
`readyState` is `OPEN`; the frame it then produces is the `move` frame
carrying the move. -/
theorem C10_no_out_of_turn_send (s : MPState) (ws : ChessWS) (gid : String)
    (m : FMove) (f : Frame) (h : handleMove s ws gid m = some f) :
    s.connected = true ∧ isPlayerTurn s = true ∧
    (∃ b c, s.gameBoard = some b ∧ s.playerColor = some c ∧ b.turn = c) ∧
    ws.socket = some .OPEN ∧ f = ⟨"move", gid, some m⟩ := by
  unfold handleMove at h
  by_cases hg : s.gameBoard = none ∨ s.connected = false ∨ isPlayerTurn s = false
  · rw [if_pos hg] at h; cases h
  · rw [if_neg hg] at h
    push_neg at hg
    obtain ⟨h1, h2, h3⟩ := hg
    have h2' : s.connected = true := by
      cases hcv : s.connected
      · exact absurd hcv h2
      · rfl
    have h3' : isPlayerTurn s = true := by
      cases hcv : isPlayerTurn s
      · exact absurd hcv h3
      · rfl
    unfold makeMove wsSend at h
    by_cases hs : ws.socket = some ReadyState.OPEN
    · rw [if_pos hs] at h
      refine ⟨h2', h3', ?_, hs, (Option.some.inj h).symm⟩
      unfold isPlayerTurn at h3'
      cases hb : s.gameBoard with
      | none => rw [hb] at h3'; cases h3'
      | some b =>
        cases hc : s.playerColor with
        | none => rw [hb, hc] at h3'; cases h3'
        | some c =>
          rw [hb, hc] at h3'
          exact ⟨b, c, rfl, rfl, of_decide_eq_true h3'⟩
    · rw [if_neg hs] at h; cases h

def wMP : MPState := ⟨some ⟨[], .white⟩, true, some .white⟩

theorem C10_witness :
    handleMove wMP ⟨some .OPEN⟩ "g" wMove = some ⟨"move", "g", some wMove⟩ ∧
    (wMP.connected = true ∧ isPlayerTurn wMP = true ∧
     (∃ b c, wMP.gameBoard = some b ∧ wMP.playerColor = some c ∧ b.turn = c) ∧
     (⟨some .OPEN⟩ : ChessWS).socket = some .OPEN ∧
     (⟨"move", "g", some wMove⟩ : Frame) = ⟨"move", "g", some wMove⟩) :=
  ⟨by decide, C10_no_out_of_turn_send wMP ⟨some .OPEN⟩ "g" wMove ⟨"move", "g", some wMove⟩
    (by decide)⟩

end Frontend

/-!
## C5: perft counts from the initial position

`perft initialBoard 3` is too large for one kernel reduction, so depth 3 is
assembled from the twenty depth-2 counts of the twenty opening moves,
stitched along the literal legal-move list of the initial position.
-/

namespace Chess

/-- The twenty legal moves of the initial position, in generation order. -/
def initMoves : List Move :=
  [⟨6, 0, 5, 0, none, false, false⟩,
   ⟨6, 0, 4, 0, none, false, false⟩,
   ⟨6, 1, 5, 1, none, false, false⟩,
   ⟨6, 1, 4, 1, none, false, false⟩,
   ⟨6, 2, 5, 2, none, false, false⟩,
   ⟨6, 2, 4, 2, none, false, false⟩,
   ⟨6, 3, 5, 3, none, false, false⟩,
   ⟨6, 3, 4, 3, none, false, false⟩,
   ⟨6, 4, 5, 4, none, false, false⟩,
   ⟨6, 4, 4, 4, none, false, false⟩,
   ⟨6, 5, 5, 5, none, false, false⟩,
   ⟨6, 5, 4, 5, none, false, false⟩,
   ⟨6, 6, 5, 6, none, false, false⟩,
   ⟨6, 6, 4, 6, none, false, false⟩,
   ⟨6, 7, 5, 7, none, false, false⟩,
   ⟨6, 7, 4, 7, none, false, false⟩,
   ⟨7, 1, 5, 0, none, false, false⟩,
   ⟨7, 1, 5, 2, none, false, false⟩,
   ⟨7, 6, 5, 5, none, false, false⟩,
   ⟨7, 6, 5, 7, none, false, false⟩]

set_option maxHeartbeats 40000000 in
theorem legalMoves_init : legalMoves initialBoard = initMoves := by decide

set_option maxHeartbeats 2000000000 in
theorem perft2_child0 : perft (execMove initialBoard ⟨6, 0, 5, 0, none, false, false⟩) 2 = 380 := by decide

set_option maxHeartbeats 2000000000 in
theorem perft2_child1 : perft (execMove initialBoard ⟨6, 0, 4, 0, none, false, false⟩) 2 = 420 := by decide

set_option maxHeartbeats 2000000000 in
theorem perft2_child2 : perft (execMove initialBoard ⟨6, 1, 5, 1, none, false, false⟩) 2 = 420 := by decide

set_option maxHeartbeats 2000000000 in
theorem perft2_child3 : perft (execMove initialBoard ⟨6, 1, 4, 1, none, false, false⟩) 2 = 421 := by decide

set_option maxHeartbeats 2000000000 in
theorem perft2_child4 : perft (execMove initialBoard ⟨6, 2, 5, 2, none, false, false⟩) 2 = 420 := by decide

set_option maxHeartbeats 2000000000 in
theorem perft2_child5 : perft (execMove initialBoard ⟨6, 2, 4, 2, none, false, false⟩) 2 = 441 := by decide

set_option maxHeartbeats 2000000000 in
theorem perft2_child6 : perft (execMove initialBoard ⟨6, 3, 5, 3, none, false, false⟩) 2 = 539 := by decide

set_option maxHeartbeats 2000000000 in
theorem perft2_child7 : perft (execMove initialBoard ⟨6, 3, 4, 3, none, false, false⟩) 2 = 560 := by decide

set_option maxHeartbeats 2000000000 in
theorem perft2_child8 : perft (execMove initialBoard ⟨6, 4, 5, 4, none, false, false⟩) 2 = 599 := by decide

set_option maxHeartbeats 2000000000 in
theorem perft2_child9 : perft (execMove initialBoard ⟨6, 4, 4, 4, none, false, false⟩) 2 = 600 := by decide

set_option maxHeartbeats 2000000000 in
theorem perft2_child10 : perft (execMove initialBoard ⟨6, 5, 5, 5, none, false, false⟩) 2 = 380 := by decide

set_option maxHeartbeats 2000000000 in
theorem perft2_child11 : perft (execMove initialBoard ⟨6, 5, 4, 5, none, false, false⟩) 2 = 401 := by decide

set_option maxHeartbeats 2000000000 in
theorem perft2_child12 : perft (execMove initialBoard ⟨6, 6, 5, 6, none, false, false⟩) 2 = 420 := by decide

set_option maxHeartbeats 2000000000 in
theorem perft2_child13 : perft (execMove initialBoard ⟨6, 6, 4, 6, none, false, false⟩) 2 = 421 := by decide

set_option maxHeartbeats 2000000000 in
theorem perft2_child14 : perft (execMove initialBoard ⟨6, 7, 5, 7, none, false, false⟩) 2 = 380 := by decide

set_option maxHeartbeats 2000000000 in
theorem perft2_child15 : perft (execMove initialBoard ⟨6, 7, 4, 7, none, false, false⟩) 2 = 420 := by decide

set_option maxHeartbeats 2000000000 in
theorem perft2_child16 : perft (execMove initialBoard ⟨7, 1, 5, 0, none, false, false⟩) 2 = 400 := by decide

set_option maxHeartbeats 2000000000 in
theorem perft2_child17 : perft (execMove initialBoard ⟨7, 1, 5, 2, none, false, false⟩) 2 = 440 := by decide

set_option maxHeartbeats 2000000000 in
theorem perft2_child18 : perft (execMove initialBoard ⟨7, 6, 5, 5, none, false, false⟩) 2 = 440 := by decide

set_option maxHeartbeats 2000000000 in
theorem perft2_child19 : perft (execMove initialBoard ⟨7, 6, 5, 7, none, false, false⟩) 2 = 400 := by decide

theorem perft_succ (b : Board) (d : Nat) :
    perft b (d + 1) = ((legalMoves b).map fun m => perft (execMove b m) d).sum := rfl

set_option maxHeartbeats 40000000 in
theorem perft1_init : perft initialBoard 1 = 20 := by decide

set_option maxHeartbeats 2000000000 in
theorem perft2_init : perft initialBoard 2 = 400 := by decide

theorem perft3_init : perft initialBoard 3 = 8902 := by
  have h := perft_succ initialBoard 2
  rw [legalMoves_init] at h
  simp only [initMoves, List.map_cons, List.map_nil, List.sum_cons, List.sum_nil,
    perft2_child0, perft2_child1, perft2_child2, perft2_child3, perft2_child4, perft2_child5, perft2_child6, perft2_child7, perft2_child8, perft2_child9, perft2_child10, perft2_child11, perft2_child12, perft2_child13, perft2_child14, perft2_child15, perft2_child16, perft2_child17, perft2_child18, perft2_child19] at h
  exact h.trans (by norm_num)

/-- **C5.** From the standard initial position, the number of leaf positions
reached by recursively applying every legal move is exactly 20 at depth 1,
400 at depth 2 and 8902 at depth 3. -/
theorem C5_perft_counts :
    perft initialBoard 1 = 20 ∧ perft initialBoard 2 = 400 ∧ perft initialBoard 3 = 8902 :=
  ⟨perft1_init, perft2_init, perft3_init⟩

end Chess


namespace Chess

/-! ## C6: mirror equivariance of the evaluation (spec §8) -/

theorem flipByte_lt {v : Nat} (hv : v < 256) : flipByte v < 256 := by
  unfold flipByte; split_ifs <;> omega

theorem flipByte_zero : flipByte 0 = 0 := rfl

theorem mod8_flip (v : Nat) : flipByte v % 8 = v % 8 := by
  unfold flipByte; split_ifs <;> omega

theorem div8_flip {v : Nat} (h : v % 8 ≠ 0) : flipByte v / 8 % 2 = 1 - v / 8 % 2 := by
  unfold flipByte; split_ifs <;> omega

theorem div16_flip (v : Nat) : flipByte v / 16 % 2 = v / 16 % 2 := by
  unfold flipByte; split_ifs <;> omega

theorem flipByte_flip (v : Nat) : flipByte (flipByte v) = v := by
  unfold flipByte; split_ifs <;> omega

theorem emptyCode_flip (v : Nat) : emptyCode (flipByte v) = emptyCode v := by
  unfold emptyCode; rw [mod8_flip]

theorem colCode_flip (v : Nat) (a : Color) : colCode (flipByte v) a = colCode v a.opposite := by
  unfold colCode
  rw [mod8_flip]
  cases hv : decide (v % 8 ≠ 0)
  · simp only [Bool.false_and]
  · simp only [Bool.true_and]
    have hne : v % 8 ≠ 0 := of_decide_eq_true hv
    rw [decide_eq_decide]
    have := div8_flip hne
    cases a <;> simp only [Color.opposite, Color.code] <;> omega

theorem colKindCode_flip (v : Nat) (a : Color) (k : Kind) :
    colKindCode (flipByte v) a k = colKindCode v a.opposite k := by
  unfold colKindCode
  rw [decide_eq_decide]
  unfold flipByte
  cases a <;> cases k <;>
    simp only [Color.opposite, Color.code, Kind.code] <;> split_ifs <;> omega

theorem decode_flip (v : Nat) : decodePiece (flipByte v) = (decodePiece v).map Piece.flip := by
  by_cases h0 : v % 8 = 0
  · have hfv : flipByte v = v := by unfold flipByte; rw [if_pos h0]
    rw [hfv]
    simp only [decodePiece]
    rw [if_pos h0]
    rfl
  · simp only [decodePiece]
    rw [mod8_flip, if_neg h0, if_neg h0]
    have h16 := div16_flip v
    have h8 := div8_flip h0
    rw [h16]
    by_cases hc : v / 8 % 2 = 0
    · rw [if_pos hc, if_neg (by omega : ¬ flipByte v / 8 % 2 = 0)]
      rfl
    · rw [if_neg hc, if_pos (by omega : flipByte v / 8 % 2 = 0)]
      rfl

theorem encode_flip (p : Piece) : Piece.encode p.flip = flipByte (Piece.encode p) := by
  cases p with
  | mk c k hm => cases c <;> cases k <;> cases hm <;> rfl

/-- The rank-reflected compass direction. -/
def Dir.mirror : Dir → Dir
  | .N => .S
  | .S => .N
  | .E => .E
  | .W => .W
  | .NE => .SE
  | .SE => .NE
  | .NW => .SW
  | .SW => .NW

theorem step_mirror : ∀ (d : Dir), ∀ r < 8, ∀ c < 8,
    Dir.step (Dir.mirror d) (7 - r) c = (Dir.step d r c).map mirrorSq := by
  intro d
  cases d <;> decide

theorem step_bounds {d : Dir} {r c : Nat} (hr : r < 8) (hc : c < 8) {s : Nat × Nat}
    (h : d.step r c = some s) : s.1 < 8 ∧ s.2 < 8 := by
  cases d <;>
    (unfold Dir.step at h; dsimp only at h; split_ifs at h <;> cases h <;>
      exact ⟨by dsimp; omega, by dsimp; omega⟩)

theorem mirrorSq_invol {s : Nat × Nat} (h : s.1 < 8) : mirrorSq (mirrorSq s) = s := by
  rcases s with ⟨a, b⟩
  simp only [mirrorSq]
  exact congrArg (fun x => (x, b)) (by dsimp at h; omega)

theorem mem_squares64 : ∀ s ∈ squares64, s.1 < 8 ∧ s.2 < 8 := by decide

/-- Equality of two guarded singleton segments with equivalent guards. -/
theorem seg_eq {α : Type _} {P Q : Prop} [Decidable P] [Decidable Q] {x y : α}
    (hpq : P ↔ Q) (hxy : Q → x = y) :
    (if P then [x] else []) = (if Q then [y] else []) := by
  by_cases h : Q
  · rw [if_pos (hpq.mpr h), if_pos h, hxy h]
  · rw [if_neg (fun hp => h (hpq.mp hp)), if_neg h]

theorem mem_squares64_of_lt {a b : Nat} (h1 : a < 8) (h2 : b < 8) : (a, b) ∈ squares64 := by
  unfold squares64
  rw [List.mem_flatMap]
  exact ⟨a, List.mem_range.mpr h1, List.mem_map.mpr ⟨b, List.mem_range.mpr h2, rfl⟩⟩

theorem squares64_mirror_perm : (squares64.map mirrorSq).Perm squares64 := by
  have h1 : squares64.map mirrorSq
      = ((List.range 8).reverse).flatMap fun r => (List.range 8).map fun c => (r, c) := by
    decide
  rw [h1]
  exact List.Perm.flatMap_right _ (List.reverse_perm (List.range 8))

theorem knight_perm {r : Nat} (hr : r < 8) (c : Nat) :
    (knightHops (7 - r) c).Perm ((knightHops r c).map mirrorSq) := by
  unfold knightHops
  simp only [List.map_append, apply_ite (List.map mirrorSq), List.map_cons, List.map_nil]
  rw [seg_eq (show 2 ≤ 7 - r ∧ 1 ≤ c ↔ r ≤ 5 ∧ 1 ≤ c by omega)
        (fun (h : r ≤ 5 ∧ 1 ≤ c) => show (7 - r - 2, c - 1) = mirrorSq (r + 2, c - 1) from by
          simp only [mirrorSq, Prod.mk.injEq, and_true, true_and]; omega),
      seg_eq (show 2 ≤ 7 - r ∧ c ≤ 6 ↔ r ≤ 5 ∧ c ≤ 6 by omega)
        (fun (h : r ≤ 5 ∧ c ≤ 6) => show (7 - r - 2, c + 1) = mirrorSq (r + 2, c + 1) from by
          simp only [mirrorSq, Prod.mk.injEq, and_true, true_and]; omega),
      seg_eq (show 1 ≤ 7 - r ∧ 2 ≤ c ↔ r ≤ 6 ∧ 2 ≤ c by omega)
        (fun (h : r ≤ 6 ∧ 2 ≤ c) => show (7 - r - 1, c - 2) = mirrorSq (r + 1, c - 2) from by
          simp only [mirrorSq, Prod.mk.injEq, and_true, true_and]; omega),
      seg_eq (show 1 ≤ 7 - r ∧ c ≤ 5 ↔ r ≤ 6 ∧ c ≤ 5 by omega)
        (fun (h : r ≤ 6 ∧ c ≤ 5) => show (7 - r - 1, c + 2) = mirrorSq (r + 1, c + 2) from by
          simp only [mirrorSq, Prod.mk.injEq, and_true, true_and]; omega),
      seg_eq (show 7 - r ≤ 6 ∧ 2 ≤ c ↔ 1 ≤ r ∧ 2 ≤ c by omega)
        (fun (h : 1 ≤ r ∧ 2 ≤ c) => show (7 - r + 1, c - 2) = mirrorSq (r - 1, c - 2) from by
          simp only [mirrorSq, Prod.mk.injEq, and_true, true_and]; omega),
      seg_eq (show 7 - r ≤ 6 ∧ c ≤ 5 ↔ 1 ≤ r ∧ c ≤ 5 by omega)
        (fun (h : 1 ≤ r ∧ c ≤ 5) => show (7 - r + 1, c + 2) = mirrorSq (r - 1, c + 2) from by
          simp only [mirrorSq, Prod.mk.injEq, and_true, true_and]; omega),
      seg_eq (show 7 - r ≤ 5 ∧ 1 ≤ c ↔ 2 ≤ r ∧ 1 ≤ c by omega)
        (fun (h : 2 ≤ r ∧ 1 ≤ c) => show (7 - r + 2, c - 1) = mirrorSq (r - 2, c - 1) from by
          simp only [mirrorSq, Prod.mk.injEq, and_true, true_and]; omega),
      seg_eq (show 7 - r ≤ 5 ∧ c ≤ 6 ↔ 2 ≤ r ∧ c ≤ 6 by omega)
        (fun (h : 2 ≤ r ∧ c ≤ 6) => show (7 - r + 2, c + 1) = mirrorSq (r - 2, c + 1) from by
          simp only [mirrorSq, Prod.mk.injEq, and_true, true_and]; omega)]
  rw [List.perm_iff_count]
  intro a
  simp only [List.count_append]
  omega

theorem king_perm {r : Nat} (hr : r < 8) (c : Nat) :
    (kingHops (7 - r) c).Perm ((kingHops r c).map mirrorSq) := by
  unfold kingHops
  simp only [List.map_append, apply_ite (List.map mirrorSq), List.map_cons, List.map_nil]
  rw [seg_eq (show 1 ≤ 7 - r ∧ 1 ≤ c ↔ r ≤ 6 ∧ 1 ≤ c by omega)
        (fun (h : r ≤ 6 ∧ 1 ≤ c) => show (7 - r - 1, c - 1) = mirrorSq (r + 1, c - 1) from by
          simp only [mirrorSq, Prod.mk.injEq, and_true, true_and]; omega),
      seg_eq (show 1 ≤ 7 - r ↔ r ≤ 6 by omega)
        (fun (h : r ≤ 6) => show (7 - r - 1, c) = mirrorSq (r + 1, c) from by
          simp only [mirrorSq, Prod.mk.injEq, and_true, true_and]; omega),
      seg_eq (show 1 ≤ 7 - r ∧ c ≤ 6 ↔ r ≤ 6 ∧ c ≤ 6 by omega)
        (fun (h : r ≤ 6 ∧ c ≤ 6) => show (7 - r - 1, c + 1) = mirrorSq (r + 1, c + 1) from by
          simp only [mirrorSq, Prod.mk.injEq, and_true, true_and]; omega),
      seg_eq (show 1 ≤ c ↔ 1 ≤ c by omega)
        (fun (h : 1 ≤ c) => show (7 - r, c - 1) = mirrorSq (r, c - 1) from rfl),
      seg_eq (show c ≤ 6 ↔ c ≤ 6 by omega)
        (fun (h : c ≤ 6) => show (7 - r, c + 1) = mirrorSq (r, c + 1) from rfl),
      seg_eq (show 7 - r ≤ 6 ∧ 1 ≤ c ↔ 1 ≤ r ∧ 1 ≤ c by omega)
        (fun (h : 1 ≤ r ∧ 1 ≤ c) => show (7 - r + 1, c - 1) = mirrorSq (r - 1, c - 1) from by
          simp only [mirrorSq, Prod.mk.injEq, and_true, true_and]; omega),
      seg_eq (show 7 - r ≤ 6 ↔ 1 ≤ r by omega)
        (fun (h : 1 ≤ r) => show (7 - r + 1, c) = mirrorSq (r - 1, c) from by
          simp only [mirrorSq, Prod.mk.injEq, and_true, true_and]; omega),
      seg_eq (show 7 - r ≤ 6 ∧ c ≤ 6 ↔ 1 ≤ r ∧ c ≤ 6 by omega)
        (fun (h : 1 ≤ r ∧ c ≤ 6) => show (7 - r + 1, c + 1) = mirrorSq (r - 1, c + 1) from by
          simp only [mirrorSq, Prod.mk.injEq, and_true, true_and]; omega)]
  rw [List.perm_iff_count]
  intro a
  simp only [List.count_append]
  omega

theorem pawnAtt_perm (a : Color) {r : Nat} (hr : r < 8) (c : Nat) :
    (pawnAttackers a.opposite (7 - r) c).Perm ((pawnAttackers a r c).map mirrorSq) := by
  cases a <;>
    simp only [pawnAttackers, Color.opposite, List.map_append, apply_ite (List.map mirrorSq),
      List.map_cons, List.map_nil]
  · rw [seg_eq (show 1 ≤ 7 - r ∧ 1 ≤ c ↔ r ≤ 6 ∧ 1 ≤ c by omega)
        (fun (h : r ≤ 6 ∧ 1 ≤ c) => show (7 - r - 1, c - 1) = mirrorSq (r + 1, c - 1) from by
          simp only [mirrorSq, Prod.mk.injEq, and_true, true_and]; omega),
        seg_eq (show 1 ≤ 7 - r ∧ c ≤ 6 ↔ r ≤ 6 ∧ c ≤ 6 by omega)
        (fun (h : r ≤ 6 ∧ c ≤ 6) => show (7 - r - 1, c + 1) = mirrorSq (r + 1, c + 1) from by
          simp only [mirrorSq, Prod.mk.injEq, and_true, true_and]; omega)]
  · rw [seg_eq (show 7 - r ≤ 6 ∧ 1 ≤ c ↔ 1 ≤ r ∧ 1 ≤ c by omega)
        (fun (h : 1 ≤ r ∧ 1 ≤ c) => show (7 - r + 1, c - 1) = mirrorSq (r - 1, c - 1) from by
          simp only [mirrorSq, Prod.mk.injEq, and_true, true_and]; omega),
        seg_eq (show 7 - r ≤ 6 ∧ c ≤ 6 ↔ 1 ≤ r ∧ c ≤ 6 by omega)
        (fun (h : 1 ≤ r ∧ c ≤ 6) => show (7 - r + 1, c + 1) = mirrorSq (r - 1, c + 1) from by
          simp only [mirrorSq, Prod.mk.injEq, and_true, true_and]; omega)]

theorem knight_bounds {r c : Nat} (hr : r < 8) (hc : c < 8) :
    ∀ s ∈ knightHops r c, s.1 < 8 ∧ s.2 < 8 := by
  intro s hs
  rcases s with ⟨x, y⟩
  unfold knightHops at hs
  simp only [List.mem_append] at hs
  rcases hs with ((((((h | h) | h) | h) | h) | h) | h) | h <;>
    (obtain ⟨he, hg⟩ := mem_ite_singleton h; rw [Prod.mk.injEq] at he;
     exact ⟨by omega, by omega⟩)

theorem king_bounds {r c : Nat} (hr : r < 8) (hc : c < 8) :
    ∀ s ∈ kingHops r c, s.1 < 8 ∧ s.2 < 8 := by
  intro s hs
  rcases s with ⟨x, y⟩
  unfold kingHops at hs
  simp only [List.mem_append] at hs
  rcases hs with ((((((h | h) | h) | h) | h) | h) | h) | h <;>
    (obtain ⟨he, hg⟩ := mem_ite_singleton h; rw [Prod.mk.injEq] at he;
     exact ⟨by omega, by omega⟩)

theorem pawnAtt_bounds {a : Color} {r c : Nat} (hr : r < 8) (hc : c < 8) :
    ∀ s ∈ pawnAttackers a r c, s.1 < 8 ∧ s.2 < 8 := by
  intro s hs
  rcases s with ⟨x, y⟩
  cases a <;>
    (simp only [pawnAttackers, List.mem_append] at hs;
     rcases hs with h | h <;>
       (obtain ⟨he, hg⟩ := mem_ite_singleton h; rw [Prod.mk.injEq] at he;
        exact ⟨by omega, by omega⟩))

theorem dirs_mirror_perm : (rookDirs.map Dir.mirror).Perm rookDirs
    ∧ (bishopDirs.map Dir.mirror).Perm bishopDirs
    ∧ (queenDirs.map Dir.mirror).Perm queenDirs := by
  refine ⟨?_, ?_, ?_⟩ <;>
    (rw [List.perm_iff_count]; intro a; cases a <;> rfl)

theorem any_of_perm {α : Type _} {l l' : List α} (h : l.Perm l') (f : α → Bool) :
    l.any f = l'.any f := by
  rw [Bool.eq_iff_iff, List.any_eq_true, List.any_eq_true]
  exact ⟨fun ⟨a, ha, hf⟩ => ⟨a, h.mem_iff.mp ha, hf⟩,
         fun ⟨a, ha, hf⟩ => ⟨a, h.mem_iff.mpr ha, hf⟩⟩

theorem any_congr_mem {α : Type _} {l : List α} {f g : α → Bool}
    (h : ∀ a ∈ l, f a = g a) : l.any f = l.any g := by
  induction l with
  | nil => rfl
  | cons x xs ih =>
    simp only [List.any_cons]
    rw [h x (List.mem_cons_self x xs), ih fun a ha => h a (List.mem_cons_of_mem x ha)]

theorem sum_map_neg (l : List Int) : (l.map fun x => -x).sum = -l.sum := by
  induction l with
  | nil => rfl
  | cons x xs ih =>
    simp only [List.map_cons, List.sum_cons, ih]
    omega

/-- Two packed boards in the mirrored-squares relation: each square's byte
is the colour-flip of the rank-reflected square's byte of the other board. -/
def MirrB (b2 b1 : Board) : Prop :=
  ∀ r, r < 8 → ∀ c, c < 8 → b2.code r c = flipByte (b1.code (7 - r) c)

theorem opposite_opposite (a : Color) : a.opposite.opposite = a := by
  cases a <;> rfl

theorem MirrB_code {b2 b1 : Board} (h : MirrB b2 b1) {r c : Nat} (hr : r < 8) (hc : c < 8) :
    b2.code (7 - r) c = flipByte (b1.code r c) := by
  have h2 := h (7 - r) (by omega) c hc
  rwa [show 7 - (7 - r) = r by omega] at h2

theorem mirrorIdx_sqIdx {r c : Nat} (hr : r < 8) (hc : c < 8) :
    mirrorIdx (sqIdx r c) = sqIdx (7 - r) c := by
  unfold mirrorIdx sqIdx
  omega

theorem mirror_MirrB (b : Board) : MirrB (mirror b) b := by
  intro r hr c hc
  show byteAt (mirrorPack b.squares) (sqIdx r c) = _
  unfold mirrorPack buildPacked
  rw [buildN_digit 64 _ (sqIdx r c) (by unfold sqIdx; omega)
      (fun j => flipByte_lt (byteAt_lt b.squares (mirrorIdx j)))]
  rw [mirrorIdx_sqIdx hr hc]
  rfl

theorem scanRay_mirror {b2 b1 : Board} (h : MirrB b2 b1) :
    ∀ (n : Nat) (d : Dir) (r c : Nat), r < 8 → c < 8 →
      scanRay b2 d.mirror (7 - r) c n = flipByte (scanRay b1 d r c n) := by
  intro n
  induction n with
  | zero => intro d r c hr hc; exact flipByte_zero.symm
  | succ k ih =>
    intro d r c hr hc
    simp only [scanRay]
    rw [step_mirror d r hr c hc]
    cases hst : d.step r c with
    | none => exact flipByte_zero.symm
    | some s =>
      obtain ⟨hs1, hs2⟩ := step_bounds hr hc hst
      have hcode : b2.code (7 - s.1) s.2 = flipByte (b1.code s.1 s.2) := MirrB_code h hs1 hs2
      dsimp only [Option.map, mirrorSq]
      rw [hcode, mod8_flip]
      by_cases hz : b1.code s.1 s.2 % 8 = 0
      · rw [if_pos hz, if_pos hz]
        exact ih d s.1 s.2 hs1 hs2
      · rw [if_neg hz, if_neg hz]

theorem attackedBy_mirror {b2 b1 : Board} (h : MirrB b2 b1) (a : Color)
    {r c : Nat} (hr : r < 8) (hc : c < 8) :
    attackedBy b2 a.opposite (7 - r) c = attackedBy b1 a r c := by
  have hPw : (pawnAttackers a.opposite (7 - r) c).any
        (fun s => colKindCode (b2.code s.1 s.2) a.opposite .Pawn)
      = (pawnAttackers a r c).any
        (fun s => colKindCode (b1.code s.1 s.2) a .Pawn) := by
    rw [any_of_perm (pawnAtt_perm a hr c), List.any_map]
    refine any_congr_mem fun s hs => ?_
    obtain ⟨h1, h2⟩ := pawnAtt_bounds hr hc s hs
    show colKindCode (b2.code (7 - s.1) s.2) a.opposite .Pawn
        = colKindCode (b1.code s.1 s.2) a .Pawn
    rw [MirrB_code h h1 h2, colKindCode_flip, opposite_opposite]
  have hKn : (knightHops (7 - r) c).any
        (fun s => colKindCode (b2.code s.1 s.2) a.opposite .Knight)
      = (knightHops r c).any
        (fun s => colKindCode (b1.code s.1 s.2) a .Knight) := by
    rw [any_of_perm (knight_perm hr c), List.any_map]
    refine any_congr_mem fun s hs => ?_
    obtain ⟨h1, h2⟩ := knight_bounds hr hc s hs
    show colKindCode (b2.code (7 - s.1) s.2) a.opposite .Knight
        = colKindCode (b1.code s.1 s.2) a .Knight
    rw [MirrB_code h h1 h2, colKindCode_flip, opposite_opposite]
  have hKi : (kingHops (7 - r) c).any
        (fun s => colKindCode (b2.code s.1 s.2) a.opposite .King)
      = (kingHops r c).any
        (fun s => colKindCode (b1.code s.1 s.2) a .King) := by
    rw [any_of_perm (king_perm hr c), List.any_map]
    refine any_congr_mem fun s hs => ?_
    obtain ⟨h1, h2⟩ := king_bounds hr hc s hs
    show colKindCode (b2.code (7 - s.1) s.2) a.opposite .King
        = colKindCode (b1.code s.1 s.2) a .King
    rw [MirrB_code h h1 h2, colKindCode_flip, opposite_opposite]
  have hRk : rookDirs.any (fun d =>
        colKindCode (scanRay b2 d (7 - r) c 7) a.opposite .Rook
          || colKindCode (scanRay b2 d (7 - r) c 7) a.opposite .Queen)
      = rookDirs.any (fun d =>
        colKindCode (scanRay b1 d r c 7) a .Rook
          || colKindCode (scanRay b1 d r c 7) a .Queen) := by
    rw [any_of_perm dirs_mirror_perm.1.symm, List.any_map]
    refine any_congr_mem fun d _ => ?_
    show (colKindCode (scanRay b2 d.mirror (7 - r) c 7) a.opposite .Rook
          || colKindCode (scanRay b2 d.mirror (7 - r) c 7) a.opposite .Queen)
        = (colKindCode (scanRay b1 d r c 7) a .Rook
          || colKindCode (scanRay b1 d r c 7) a .Queen)
    rw [scanRay_mirror h 7 d r c hr hc, colKindCode_flip, colKindCode_flip,
      opposite_opposite]
  have hBi : bishopDirs.any (fun d =>
        colKindCode (scanRay b2 d (7 - r) c 7) a.opposite .Bishop
          || colKindCode (scanRay b2 d (7 - r) c 7) a.opposite .Queen)
      = bishopDirs.any (fun d =>
        colKindCode (scanRay b1 d r c 7) a .Bishop
          || colKindCode (scanRay b1 d r c 7) a .Queen) := by
    rw [any_of_perm dirs_mirror_perm.2.1.symm, List.any_map]
    refine any_congr_mem fun d _ => ?_
    show (colKindCode (scanRay b2 d.mirror (7 - r) c 7) a.opposite .Bishop
          || colKindCode (scanRay b2 d.mirror (7 - r) c 7) a.opposite .Queen)
        = (colKindCode (scanRay b1 d r c 7) a .Bishop
          || colKindCode (scanRay b1 d r c 7) a .Queen)
    rw [scanRay_mirror h 7 d r c hr hc, colKindCode_flip, colKindCode_flip,
      opposite_opposite]
  simp only [attackedBy]
  rw [hPw, hKn, hKi, hRk, hBi]

theorem flatMap_perm_congr {α β : Type _} {l : List α} {f g : α → List β}
    (h : ∀ a ∈ l, (f a).Perm (g a)) : (l.flatMap f).Perm (l.flatMap g) := by
  induction l with
  | nil => exact List.Perm.refl _
  | cons x xs ih =>
    simp only [List.flatMap_cons]
    exact (h x (List.mem_cons_self x xs)).append
      (ih fun a ha => h a (List.mem_cons_of_mem x ha))

theorem kingSquares_mirror_perm {b2 b1 : Board} (hsq : MirrB b2 b1) (col : Color) :
    (kingSquares b2 col.opposite).Perm ((kingSquares b1 col).map mirrorSq) := by
  unfold kingSquares
  have h1 : squares64.filter
        (fun s => colKindCode (b2.code s.1 s.2) col.opposite .King)
      = squares64.filter
        ((fun s => colKindCode (b1.code s.1 s.2) col .King) ∘ mirrorSq) := by
    refine List.filter_congr fun s hs => ?_
    obtain ⟨hx, hy⟩ := mem_squares64 s hs
    show colKindCode (b2.code s.1 s.2) col.opposite .King
        = colKindCode (b1.code (7 - s.1) s.2) col .King
    have hb := hsq s.1 hx s.2 hy
    rw [hb, colKindCode_flip, opposite_opposite]
  rw [h1]
  have h2 := List.filter_map (p := fun s => colKindCode (b1.code s.1 s.2) col .King)
    mirrorSq squares64
  have h3 : (List.filter (fun s => colKindCode (b1.code s.1 s.2) col .King)
        (squares64.map mirrorSq)).Perm
      (List.filter (fun s => colKindCode (b1.code s.1 s.2) col .King) squares64) :=
    List.Perm.filter _ squares64_mirror_perm
  rw [h2] at h3
  have h4 := List.Perm.map mirrorSq h3
  rw [List.map_map] at h4
  have h5 : List.map (mirrorSq ∘ mirrorSq)
        (squares64.filter ((fun s => colKindCode (b1.code s.1 s.2) col .King) ∘ mirrorSq))
      = List.map id
        (squares64.filter ((fun s => colKindCode (b1.code s.1 s.2) col .King) ∘ mirrorSq)) := by
    refine List.map_congr_left fun s hs => ?_
    obtain ⟨hx, _⟩ := mem_squares64 s (List.mem_of_mem_filter hs)
    show mirrorSq (mirrorSq s) = s
    exact mirrorSq_invol hx
  rw [h5, List.map_id] at h4
  exact h4

theorem pawnStep_lt {col : Color} {r r1 : Nat} (h : pawnStep col r = some r1)
    (hr : r < 8) : r1 < 8 := by
  cases col <;> (unfold pawnStep at h; dsimp only at h; split_ifs at h <;> cases h <;> omega)

theorem pawnStep_mirror {col : Color} {r : Nat} (hr : r < 8) :
    pawnStep col.opposite (7 - r) = (pawnStep col r).map fun x => 7 - x := by
  cases col <;> unfold pawnStep Color.opposite <;> dsimp only
  · by_cases h : 1 ≤ r
    · rw [if_pos (show 7 - r ≤ 6 by omega), if_pos h]
      dsimp only [Option.map]
      exact congrArg some (by omega)
    · rw [if_neg (show ¬ 7 - r ≤ 6 by omega), if_neg h]
      rfl
  · by_cases h : r ≤ 6
    · rw [if_pos (show 1 ≤ 7 - r by omega), if_pos h]
      dsimp only [Option.map]
      exact congrArg some (by omega)
    · rw [if_neg (show ¬ 1 ≤ 7 - r by omega), if_neg h]
      rfl

theorem promoRow_lt (col : Color) : promoRow col < 8 := by cases col <;> decide

theorem promoRow_opp (col : Color) : promoRow col.opposite = 7 - promoRow col := by
  cases col <;> rfl

theorem pawnHomeRow_opp (col : Color) : pawnHomeRow col.opposite = 7 - pawnHomeRow col := by
  cases col <;> rfl

theorem homeRow_opp (col : Color) : homeRow col.opposite = 7 - homeRow col := by
  cases col <;> rfl

theorem homeRow_lt (col : Color) : homeRow col < 8 := by cases col <;> decide

theorem pawnHomeRow_lt (col : Color) : pawnHomeRow col < 8 := by cases col <;> decide

theorem promoExpand_mirror {col : Color} {fr fc tr tc : Nat} (htr : tr < 8) :
    promoExpand col.opposite (7 - fr) fc (7 - tr) tc
      = (promoExpand col fr fc tr tc).map mirrorMove := by
  unfold promoExpand
  rw [promoRow_opp]
  by_cases h : tr = promoRow col
  · rw [if_pos (by omega : 7 - tr = 7 - promoRow col), if_pos h, List.map_map]
    rfl
  · rw [if_neg (by have := promoRow_lt col; omega : ¬ 7 - tr = 7 - promoRow col), if_neg h]
    rfl

theorem pawnForward_mirror {b2 b1 : Board} (hsq : MirrB b2 b1) {col : Color} {r c : Nat}
    (hr : r < 8) (hc : c < 8) :
    pawnForward b2 col.opposite (7 - r) c = (pawnForward b1 col r c).map mirrorMove := by
  unfold pawnForward
  rw [pawnStep_mirror hr]
  cases h1 : pawnStep col r with
  | none => rfl
  | some r1 =>
    dsimp only [Option.map]
    have hr1 : r1 < 8 := pawnStep_lt h1 hr
    rw [MirrB_code hsq hr1 hc, emptyCode_flip]
    by_cases he : emptyCode (b1.code r1 c) = true
    · rw [if_pos he, if_pos he, List.map_append]
      congr 1
      · exact promoExpand_mirror hr1
      · rw [pawnStep_mirror hr1]
        cases h2 : pawnStep col r1 with
        | none => rfl
        | some r2 =>
          dsimp only [Option.map]
          have hr2 : r2 < 8 := pawnStep_lt h2 hr1
          rw [MirrB_code hsq hr2 hc, emptyCode_flip, pawnHomeRow_opp]
          by_cases hcond : r = pawnHomeRow col ∧ emptyCode (b1.code r2 c) = true
          · rw [if_pos ⟨by omega, hcond.2⟩, if_pos hcond]
            rfl
          · rw [if_neg (by have := pawnHomeRow_lt col; intro hx; exact hcond ⟨by omega, hx.2⟩),
              if_neg hcond]
            rfl
    · rw [if_neg he, if_neg he]
      rfl

theorem pawnCaptureAt_mirror {b2 b1 : Board} (hsq : MirrB b2 b1)
    (hep : b2.enPassantTarget = b1.enPassantTarget.map mirrorSq) (hepOk : epOk b1)
    {col : Color} {r c r1 c1 : Nat} (hr1 : r1 < 8) (hc1 : c1 < 8) :
    pawnCaptureAt b2 col.opposite (7 - r) c (7 - r1) c1
      = (pawnCaptureAt b1 col r c r1 c1).map mirrorMove := by
  unfold pawnCaptureAt
  dsimp only
  rw [MirrB_code hsq hr1 hc1, opposite_opposite, colCode_flip]
  by_cases hcap : colCode (b1.code r1 c1) col.opposite = true
  · rw [if_pos hcap, if_pos hcap]
    exact promoExpand_mirror hr1
  · rw [if_neg hcap, if_neg hcap]
    rw [emptyCode_flip]
    have hepiff : (b2.enPassantTarget = some (7 - r1, c1))
        ↔ (b1.enPassantTarget = some (r1, c1)) := by
      rw [hep]
      cases hE : b1.enPassantTarget with
      | none => simp
      | some s =>
        rcases s with ⟨x, y⟩
        have hx : 0 < x ∧ x < 7 := by
          unfold epOk at hepOk
          rw [hE] at hepOk
          exact hepOk
        dsimp only [Option.map, mirrorSq]
        constructor
        · intro hxy
          have h2 := Option.some.inj hxy
          rw [Prod.mk.injEq] at h2
          exact congrArg some (by rw [Prod.mk.injEq]; constructor <;> omega)
        · intro hxy
          have h2 := Option.some.inj hxy
          rw [Prod.mk.injEq] at h2
          exact congrArg some (by rw [Prod.mk.injEq]; constructor <;> omega)
    by_cases hec : emptyCode (b1.code r1 c1) = true ∧ b1.enPassantTarget = some (r1, c1)
    · rw [if_pos ⟨hec.1, hepiff.mpr hec.2⟩, if_pos hec]
      rfl
    · rw [if_neg (fun hx => hec ⟨hx.1, hepiff.mp hx.2⟩), if_neg hec]
      rfl

theorem pawnCapture_mirror {b2 b1 : Board} (hsq : MirrB b2 b1)
    (hep : b2.enPassantTarget = b1.enPassantTarget.map mirrorSq) (hepOk : epOk b1)
    {col : Color} {r c : Nat} (hr : r < 8) (hc : c < 8) (right : Bool) :
    pawnCapture b2 col.opposite (7 - r) c right
      = (pawnCapture b1 col r c right).map mirrorMove := by
  unfold pawnCapture
  rw [pawnStep_mirror hr]
  cases h1 : pawnStep col r with
  | none => cases right <;> rfl
  | some r1 =>
    dsimp only [Option.map]
    have hr1 : r1 < 8 := pawnStep_lt h1 hr
    cases right
    · dsimp only
      by_cases hcg : 1 ≤ c
      · rw [if_pos hcg, if_pos hcg]
        exact pawnCaptureAt_mirror hsq hep hepOk hr1 (by omega)
      · rw [if_neg hcg, if_neg hcg]
        rfl
    · dsimp only
      by_cases hcg : c ≤ 6
      · rw [if_pos hcg, if_pos hcg]
        exact pawnCaptureAt_mirror hsq hep hepOk hr1 (by omega)
      · rw [if_neg hcg, if_neg hcg]
        rfl

theorem pawnMoves_mirror {b2 b1 : Board} (hsq : MirrB b2 b1)
    (hep : b2.enPassantTarget = b1.enPassantTarget.map mirrorSq) (hepOk : epOk b1)
    {col : Color} {r c : Nat} (hr : r < 8) (hc : c < 8) :
    pawnMoves b2 col.opposite (7 - r) c = (pawnMoves b1 col r c).map mirrorMove := by
  unfold pawnMoves
  rw [List.map_append, List.map_append, pawnForward_mirror hsq hr hc,
    pawnCapture_mirror hsq hep hepOk hr hc false, pawnCapture_mirror hsq hep hepOk hr hc true]

theorem stepMoves_mirror {b2 b1 : Board} (hsq : MirrB b2 b1) (col : Color)
    {r c : Nat} (hr : r < 8) {l2 l1 : List (Nat × Nat)}
    (hperm : l2.Perm (l1.map mirrorSq)) (hb1 : ∀ s ∈ l1, s.1 < 8 ∧ s.2 < 8) :
    (stepMoves b2 col.opposite (7 - r) c l2).Perm
      ((stepMoves b1 col r c l1).map mirrorMove) := by
  unfold stepMoves
  refine (List.Perm.filterMap _ hperm).trans ?_
  rw [List.filterMap_map, List.map_filterMap]
  refine List.Perm.of_eq (List.filterMap_congr fun s hs => ?_)
  obtain ⟨hx, hy⟩ := hb1 s hs
  show (if colCode (b2.code (7 - s.1) s.2) col.opposite then none
        else some (mkMove (7 - r) c (7 - s.1) s.2 none false false))
      = Option.map mirrorMove (if colCode (b1.code s.1 s.2) col then none
        else some (mkMove r c s.1 s.2 none false false))
  rw [MirrB_code hsq hx hy, colCode_flip, opposite_opposite, apply_ite (Option.map mirrorMove)]
  rfl

theorem rayMoves_mirror {b2 b1 : Board} (hsq : MirrB b2 b1) (col : Color)
    {fr fc : Nat} :
    ∀ (n : Nat) (d : Dir) (r c : Nat), r < 8 → c < 8 →
      rayMoves b2 col.opposite (7 - fr) fc d.mirror (7 - r) c n
        = (rayMoves b1 col fr fc d r c n).map mirrorMove := by
  intro n
  induction n with
  | zero => intro d r c hr hc; rfl
  | succ k ih =>
    intro d r c hr hc
    simp only [rayMoves]
    rw [step_mirror d r hr c hc]
    cases hst : d.step r c with
    | none => rfl
    | some s =>
      obtain ⟨hs1, hs2⟩ := step_bounds hr hc hst
      dsimp only [Option.map, mirrorSq]
      rw [MirrB_code hsq hs1 hs2, emptyCode_flip, colCode_flip, opposite_opposite]
      by_cases h1 : emptyCode (b1.code s.1 s.2) = true
      · rw [if_pos h1, if_pos h1, List.map_cons, ih d s.1 s.2 hs1 hs2]
        rfl
      · rw [if_neg h1, if_neg h1]
        by_cases h2 : colCode (b1.code s.1 s.2) col.opposite = true
        · rw [if_pos h2, if_pos h2]
          rfl
        · rw [if_neg h2, if_neg h2]
          rfl

theorem slideMoves_mirror {b2 b1 : Board} (hsq : MirrB b2 b1) (col : Color)
    {r c : Nat} (hr : r < 8) (hc : c < 8) {dirs : List Dir}
    (hperm : (dirs.map Dir.mirror).Perm dirs) :
    (slideMoves b2 col.opposite (7 - r) c dirs).Perm
      ((slideMoves b1 col r c dirs).map mirrorMove) := by
  unfold slideMoves
  refine (List.Perm.flatMap_right _ hperm.symm).trans ?_
  rw [List.flatMap_map, List.map_flatMap]
  refine List.Perm.of_eq (List.flatMap_congr fun d _ => ?_)
  exact rayMoves_mirror hsq col 7 d r c hr hc

theorem unmovedAt_mirror {b2 b1 : Board} (hsq : MirrB b2 b1) (col : Color) (k : Kind)
    {r c : Nat} (hr : r < 8) (hc : c < 8) :
    unmovedAt b2 col.opposite k (7 - r) c = unmovedAt b1 col k r c := by
  unfold unmovedAt
  rw [MirrB_code hsq hr hc, decide_eq_decide]
  constructor
  · intro hf
    have h2 := congrArg flipByte hf
    rw [flipByte_flip] at h2
    rw [h2]
    cases col <;> cases k <;> rfl
  · intro hv
    rw [hv]
    cases col <;> cases k <;> rfl

theorem castleSide_mirror {b2 b1 : Board} (hsq : MirrB b2 b1)
    (hcr : b2.castlingRights = ⟨b1.castlingRights.black, b1.castlingRights.white⟩)
    (col : Color) (ks : Bool) :
    castleSide b2 col.opposite ks = (castleSide b1 col ks).map mirrorMove := by
  cases col <;> cases ks
  · have hu1 : unmovedAt b2 .Black .King 0 4 = unmovedAt b1 .White .King 7 4 := by
      have h := unmovedAt_mirror hsq .White .King (show (7:Nat) < 8 by decide) (show (4:Nat) < 8 by decide)
      simpa [Color.opposite] using h
    have hu2 : unmovedAt b2 .Black .Rook 0 0 = unmovedAt b1 .White .Rook 7 0 := by
      have h := unmovedAt_mirror hsq .White .Rook (show (7:Nat) < 8 by decide) (show (0:Nat) < 8 by decide)
      simpa [Color.opposite] using h
    have he1 : emptyCode (b2.code 0 1) = emptyCode (b1.code 7 1) := by
      have h := MirrB_code hsq (show (7:Nat) < 8 by decide) (show (1:Nat) < 8 by decide)
      simp only [show (7:Nat) - 7 = 0 from rfl] at h
      rw [h, emptyCode_flip]
    have he2 : emptyCode (b2.code 0 2) = emptyCode (b1.code 7 2) := by
      have h := MirrB_code hsq (show (7:Nat) < 8 by decide) (show (2:Nat) < 8 by decide)
      simp only [show (7:Nat) - 7 = 0 from rfl] at h
      rw [h, emptyCode_flip]
    have he3 : emptyCode (b2.code 0 3) = emptyCode (b1.code 7 3) := by
      have h := MirrB_code hsq (show (7:Nat) < 8 by decide) (show (3:Nat) < 8 by decide)
      simp only [show (7:Nat) - 7 = 0 from rfl] at h
      rw [h, emptyCode_flip]
    have ha4 : attackedBy b2 .White 0 4 = attackedBy b1 .Black 7 4 := by
      have h := attackedBy_mirror hsq .Black (r := 7) (c := 4) (by decide) (by decide)
      simpa [Color.opposite] using h
    have ha2 : attackedBy b2 .White 0 2 = attackedBy b1 .Black 7 2 := by
      have h := attackedBy_mirror hsq .Black (r := 7) (c := 2) (by decide) (by decide)
      simpa [Color.opposite] using h
    have ha3 : attackedBy b2 .White 0 3 = attackedBy b1 .Black 7 3 := by
      have h := attackedBy_mirror hsq .Black (r := 7) (c := 3) (by decide) (by decide)
      simpa [Color.opposite] using h
    unfold castleSide
    dsimp only [Color.opposite, homeRow]
    rw [hcr]
    simp only [eq_false (by decide : ¬ (false = true)),
      eq_true (rfl : (true : Bool) = true),
      eq_false (by decide : ¬ (Color.Black = Color.White)),
      eq_true (rfl : Color.White = Color.White),
      if_false, if_true, List.all_cons, List.all_nil]
    rw [hu1, hu2, he1, he2, he3, ha4, ha2, ha3, apply_ite (List.map mirrorMove)]
    split_ifs <;> rfl
  · have hu1 : unmovedAt b2 .Black .King 0 4 = unmovedAt b1 .White .King 7 4 := by
      have h := unmovedAt_mirror hsq .White .King (show (7:Nat) < 8 by decide) (show (4:Nat) < 8 by decide)
      simpa [Color.opposite] using h
    have hu2 : unmovedAt b2 .Black .Rook 0 7 = unmovedAt b1 .White .Rook 7 7 := by
      have h := unmovedAt_mirror hsq .White .Rook (show (7:Nat) < 8 by decide) (show (7:Nat) < 8 by decide)
      simpa [Color.opposite] using h
    have he5 : emptyCode (b2.code 0 5) = emptyCode (b1.code 7 5) := by
      have h := MirrB_code hsq (show (7:Nat) < 8 by decide) (show (5:Nat) < 8 by decide)
      simp only [show (7:Nat) - 7 = 0 from rfl] at h
      rw [h, emptyCode_flip]
    have he6 : emptyCode (b2.code 0 6) = emptyCode (b1.code 7 6) := by
      have h := MirrB_code hsq (show (7:Nat) < 8 by decide) (show (6:Nat) < 8 by decide)
      simp only [show (7:Nat) - 7 = 0 from rfl] at h
      rw [h, emptyCode_flip]
    have ha4 : attackedBy b2 .White 0 4 = attackedBy b1 .Black 7 4 := by
      have h := attackedBy_mirror hsq .Black (r := 7) (c := 4) (by decide) (by decide)
      simpa [Color.opposite] using h
    have ha5 : attackedBy b2 .White 0 5 = attackedBy b1 .Black 7 5 := by
      have h := attackedBy_mirror hsq .Black (r := 7) (c := 5) (by decide) (by decide)
      simpa [Color.opposite] using h
    have ha6 : attackedBy b2 .White 0 6 = attackedBy b1 .Black 7 6 := by
      have h := attackedBy_mirror hsq .Black (r := 7) (c := 6) (by decide) (by decide)
      simpa [Color.opposite] using h
    unfold castleSide
    dsimp only [Color.opposite, homeRow]
    rw [hcr]
    simp only [eq_false (by decide : ¬ (false = true)),
      eq_true (rfl : (true : Bool) = true),
      eq_false (by decide : ¬ (Color.Black = Color.White)),
      eq_true (rfl : Color.White = Color.White),
      if_false, if_true, List.all_cons, List.all_nil]
    rw [hu1, hu2, he5, he6, ha4, ha5, ha6, apply_ite (List.map mirrorMove)]
    split_ifs <;> rfl
  · have hu1 : unmovedAt b2 .White .King 7 4 = unmovedAt b1 .Black .King 0 4 := by
      have h := unmovedAt_mirror hsq .Black .King (show (0:Nat) < 8 by decide) (show (4:Nat) < 8 by decide)
      simpa [Color.opposite] using h
    have hu2 : unmovedAt b2 .White .Rook 7 0 = unmovedAt b1 .Black .Rook 0 0 := by
      have h := unmovedAt_mirror hsq .Black .Rook (show (0:Nat) < 8 by decide) (show (0:Nat) < 8 by decide)
      simpa [Color.opposite] using h
    have he1 : emptyCode (b2.code 7 1) = emptyCode (b1.code 0 1) := by
      have h := MirrB_code hsq (show (0:Nat) < 8 by decide) (show (1:Nat) < 8 by decide)
      simp only [show (7:Nat) - 0 = 7 from rfl] at h
      rw [h, emptyCode_flip]
    have he2 : emptyCode (b2.code 7 2) = emptyCode (b1.code 0 2) := by
      have h := MirrB_code hsq (show (0:Nat) < 8 by decide) (show (2:Nat) < 8 by decide)
      simp only [show (7:Nat) - 0 = 7 from rfl] at h
      rw [h, emptyCode_flip]
    have he3 : emptyCode (b2.code 7 3) = emptyCode (b1.code 0 3) := by
      have h := MirrB_code hsq (show (0:Nat) < 8 by decide) (show (3:Nat) < 8 by decide)
      simp only [show (7:Nat) - 0 = 7 from rfl] at h
      rw [h, emptyCode_flip]
    have ha4 : attackedBy b2 .Black 7 4 = attackedBy b1 .White 0 4 := by
      have h := attackedBy_mirror hsq .White (r := 0) (c := 4) (by decide) (by decide)
      simpa [Color.opposite] using h
    have ha2 : attackedBy b2 .Black 7 2 = attackedBy b1 .White 0 2 := by
      have h := attackedBy_mirror hsq .White (r := 0) (c := 2) (by decide) (by decide)
      simpa [Color.opposite] using h
    have ha3 : attackedBy b2 .Black 7 3 = attackedBy b1 .White 0 3 := by
      have h := attackedBy_mirror hsq .White (r := 0) (c := 3) (by decide) (by decide)
      simpa [Color.opposite] using h
    unfold castleSide
    dsimp only [Color.opposite, homeRow]
    rw [hcr]
    simp only [eq_false (by decide : ¬ (false = true)),
      eq_true (rfl : (true : Bool) = true),
      eq_false (by decide : ¬ (Color.Black = Color.White)),
      eq_true (rfl : Color.White = Color.White),
      if_false, if_true, List.all_cons, List.all_nil]
    rw [hu1, hu2, he1, he2, he3, ha4, ha2, ha3, apply_ite (List.map mirrorMove)]
    split_ifs <;> rfl
  · have hu1 : unmovedAt b2 .White .King 7 4 = unmovedAt b1 .Black .King 0 4 := by
      have h := unmovedAt_mirror hsq .Black .King (show (0:Nat) < 8 by decide) (show (4:Nat) < 8 by decide)
      simpa [Color.opposite] using h
    have hu2 : unmovedAt b2 .White .Rook 7 7 = unmovedAt b1 .Black .Rook 0 7 := by
      have h := unmovedAt_mirror hsq .Black .Rook (show (0:Nat) < 8 by decide) (show (7:Nat) < 8 by decide)
      simpa [Color.opposite] using h
    have he5 : emptyCode (b2.code 7 5) = emptyCode (b1.code 0 5) := by
      have h := MirrB_code hsq (show (0:Nat) < 8 by decide) (show (5:Nat) < 8 by decide)
      simp only [show (7:Nat) - 0 = 7 from rfl] at h
      rw [h, emptyCode_flip]
    have he6 : emptyCode (b2.code 7 6) = emptyCode (b1.code 0 6) := by
      have h := MirrB_code hsq (show (0:Nat) < 8 by decide) (show (6:Nat) < 8 by decide)
      simp only [show (7:Nat) - 0 = 7 from rfl] at h
      rw [h, emptyCode_flip]
    have ha4 : attackedBy b2 .Black 7 4 = attackedBy b1 .White 0 4 := by
      have h := attackedBy_mirror hsq .White (r := 0) (c := 4) (by decide) (by decide)
      simpa [Color.opposite] using h
    have ha5 : attackedBy b2 .Black 7 5 = attackedBy b1 .White 0 5 := by
      have h := attackedBy_mirror hsq .White (r := 0) (c := 5) (by decide) (by decide)
      simpa [Color.opposite] using h
    have ha6 : attackedBy b2 .Black 7 6 = attackedBy b1 .White 0 6 := by
      have h := attackedBy_mirror hsq .White (r := 0) (c := 6) (by decide) (by decide)
      simpa [Color.opposite] using h
    unfold castleSide
    dsimp only [Color.opposite, homeRow]
    rw [hcr]
    simp only [eq_false (by decide : ¬ (false = true)),
      eq_true (rfl : (true : Bool) = true),
      eq_false (by decide : ¬ (Color.Black = Color.White)),
      eq_true (rfl : Color.White = Color.White),
      if_false, if_true, List.all_cons, List.all_nil]
    rw [hu1, hu2, he5, he6, ha4, ha5, ha6, apply_ite (List.map mirrorMove)]
    split_ifs <;> rfl

theorem mem_pawnForward_to {b : Board} {col : Color} {r c : Nat} {m : Move}
    (h : m ∈ pawnForward b col r c) (hr : r < 8) (hc : c < 8) :
    m.toRow < 8 ∧ m.toCol < 8 := by
  unfold pawnForward at h
  rcases hstep : pawnStep col r with _ | r1
  all_goals rw [hstep] at h
  · simp at h
  dsimp only at h
  have hr1 : r1 < 8 := pawnStep_lt hstep hr
  by_cases hempty : emptyCode (b.code r1 c) = true
  · rw [if_pos hempty] at h
    rcases List.mem_append.mp h with h1 | h1
    · obtain ⟨-, -, e3, e4, -⟩ := mem_promoExpand h1
      omega
    · rcases hs2 : pawnStep col r1 with _ | r2
      all_goals rw [hs2] at h1
      · simp at h1
      dsimp only at h1
      have hr2 : r2 < 8 := pawnStep_lt hs2 hr1
      split_ifs at h1
      · simp only [mkMove, List.mem_singleton] at h1
        subst h1
        exact ⟨hr2, hc⟩
      · simp at h1
  · rw [if_neg hempty] at h
    simp at h

theorem mem_pawnCaptureAt_to {b : Board} {col : Color} {r c r1 c1 : Nat} {m : Move}
    (h : m ∈ pawnCaptureAt b col r c r1 c1) (hr1 : r1 < 8) (hc1 : c1 < 8) :
    m.toRow < 8 ∧ m.toCol < 8 := by
  unfold pawnCaptureAt at h
  dsimp only at h
  split_ifs at h
  · obtain ⟨-, -, e3, e4, -⟩ := mem_promoExpand h
    omega
  · simp only [mkMove, List.mem_singleton] at h
    subst h
    exact ⟨hr1, hc1⟩
  · simp at h

theorem mem_pawnCapture_to {b : Board} {col : Color} {r c : Nat} {right : Bool} {m : Move}
    (h : m ∈ pawnCapture b col r c right) (hr : r < 8) (hc : c < 8) :
    m.toRow < 8 ∧ m.toCol < 8 := by
  unfold pawnCapture at h
  rcases hstep : pawnStep col r with _ | r1
  all_goals rw [hstep] at h
  · simp at h
  have hr1 : r1 < 8 := pawnStep_lt hstep hr
  cases right
  all_goals dsimp only at h
  · split_ifs at h
    · exact mem_pawnCaptureAt_to h hr1 (by omega)
    · simp at h
  · split_ifs at h with hg
    · exact mem_pawnCaptureAt_to h hr1 (by omega)
    · simp at h

theorem mem_pawnMoves_to {b : Board} {col : Color} {r c : Nat} {m : Move}
    (h : m ∈ pawnMoves b col r c) (hr : r < 8) (hc : c < 8) :
    m.toRow < 8 ∧ m.toCol < 8 := by
  unfold pawnMoves at h
  rcases List.mem_append.mp h with h1 | h1
  · rcases List.mem_append.mp h1 with h2 | h2
    · exact mem_pawnForward_to h2 hr hc
    · exact mem_pawnCapture_to h2 hr hc
  · exact mem_pawnCapture_to h1 hr hc

theorem mem_stepMoves_to {b : Board} {col : Color} {r c : Nat} {hops : List (Nat × Nat)}
    {m : Move} (h : m ∈ stepMoves b col r c hops)
    (hb : ∀ s ∈ hops, s.1 < 8 ∧ s.2 < 8) : m.toRow < 8 ∧ m.toCol < 8 := by
  unfold stepMoves at h
  rcases List.mem_filterMap.mp h with ⟨s, hmem, hs⟩
  split at hs
  · exact absurd hs (by simp)
  · simp only [mkMove, Option.some.injEq] at hs
    subst hs
    exact hb s hmem

theorem mem_rayMoves_to {b : Board} {col : Color} {fr fc : Nat} {d : Dir} :
    ∀ {n r c : Nat} {m : Move}, m ∈ rayMoves b col fr fc d r c n → r < 8 → c < 8 →
      m.toRow < 8 ∧ m.toCol < 8 := by
  intro n
  induction n with
  | zero => intro r c m h _ _; simp [rayMoves] at h
  | succ k ih =>
    intro r c m h hr hc
    unfold rayMoves at h
    rcases hstep : Dir.step d r c with _ | s
    all_goals rw [hstep] at h
    · simp at h
    obtain ⟨hs1, hs2⟩ := step_bounds hr hc hstep
    dsimp only at h
    split at h
    · rcases List.mem_cons.mp h with h1 | h1
      · subst h1
        exact ⟨hs1, hs2⟩
      · exact ih h1 hs1 hs2
    · split at h
      · simp only [mkMove, List.mem_singleton] at h
        subst h
        exact ⟨hs1, hs2⟩
      · simp at h

theorem mem_slideMoves_to {b : Board} {col : Color} {r c : Nat} {dirs : List Dir} {m : Move}
    (h : m ∈ slideMoves b col r c dirs) (hr : r < 8) (hc : c < 8) :
    m.toRow < 8 ∧ m.toCol < 8 := by
  unfold slideMoves at h
  rcases List.mem_flatMap.mp h with ⟨d, _, hd⟩
  exact mem_rayMoves_to hd hr hc

theorem mem_castleSide_to {b : Board} {col : Color} {ks : Bool} {m : Move}
    (h : m ∈ castleSide b col ks) : m.toRow < 8 ∧ m.toCol < 8 := by
  unfold castleSide at h
  cases ks
  all_goals
    dsimp only at h
    obtain ⟨hm, -⟩ := mem_ite_singleton h
    subst hm
  · exact ⟨homeRow_lt col, by show (if false = true then (6:Nat) else 2) < 8; decide⟩
  · exact ⟨homeRow_lt col, by show (if true = true then (6:Nat) else 2) < 8; decide⟩

theorem pseudo_bounds {b : Board} {m : Move} (h : m ∈ pseudoMoves b) :
    m.fromRow < 8 ∧ m.fromCol < 8 ∧ m.toRow < 8 ∧ m.toCol < 8 := by
  unfold pseudoMoves at h
  rcases List.mem_flatMap.mp h with ⟨s, hs64, hm⟩
  obtain ⟨hx, hy⟩ := mem_squares64 s hs64
  dsimp only at hm
  by_cases hc : colCode (b.code s.1 s.2) b.turn = true
  · rw [if_pos hc] at hm
    cases hk : kindOfCode (b.code s.1 s.2 % 8)
    all_goals rw [hk] at hm
    case _ =>
      obtain ⟨e1, e2, -⟩ := mem_pawnMoves hm
      obtain ⟨t1, t2⟩ := mem_pawnMoves_to hm hx hy
      omega
    case _ =>
      obtain ⟨e1, e2, -⟩ := mem_stepMoves hm
      obtain ⟨t1, t2⟩ := mem_stepMoves_to hm (knight_bounds hx hy)
      omega
    case _ =>
      obtain ⟨e1, e2, -⟩ := mem_slideMoves hm
      obtain ⟨t1, t2⟩ := mem_slideMoves_to hm hx hy
      omega
    case _ =>
      obtain ⟨e1, e2, -⟩ := mem_slideMoves hm
      obtain ⟨t1, t2⟩ := mem_slideMoves_to hm hx hy
      omega
    case _ =>
      obtain ⟨e1, e2, -⟩ := mem_slideMoves hm
      obtain ⟨t1, t2⟩ := mem_slideMoves_to hm hx hy
      omega
    case _ =>
      rcases List.mem_append.mp hm with h1 | h1
      · rcases List.mem_append.mp h1 with h2 | h2
        · obtain ⟨e1, e2, -⟩ := mem_stepMoves h2
          obtain ⟨t1, t2⟩ := mem_stepMoves_to h2 (king_bounds hx hy)
          omega
        · obtain ⟨e1, e2, -⟩ := mem_castleSide h2
          obtain ⟨t1, t2⟩ := mem_castleSide_to h2
          have := homeRow_lt b.turn
          omega
      · obtain ⟨e1, e2, -⟩ := mem_castleSide h1
        obtain ⟨t1, t2⟩ := mem_castleSide_to h1
        have := homeRow_lt b.turn
        omega
  · rw [if_neg hc] at hm
    simp at hm

theorem MirrB_setSq {b2 b1 : Board} (hsq : MirrB b2 b1) {r c : Nat} (hr : r < 8) (hc : c < 8)
    {v : Nat} (hv : v < 256) :
    MirrB (b2.setSq (7 - r) c (flipByte v)) (b1.setSq r c v) := by
  intro x hx y hy
  show byteAt (setByteAt b2.squares (sqIdx (7 - r) c) (flipByte v)) (sqIdx x y)
      = flipByte (byteAt (setByteAt b1.squares (sqIdx r c) v) (sqIdx (7 - x) y))
  by_cases heq : x = 7 - r ∧ y = c
  · rw [heq.1, heq.2, byteAt_set_self _ _ (flipByte_lt hv),
      show 7 - (7 - r) = r by omega, byteAt_set_self _ _ hv]
  · have hne1 : sqIdx x y ≠ sqIdx (7 - r) c := by
      unfold sqIdx
      intro hcon
      exact heq ⟨by omega, by omega⟩
    have hne2 : sqIdx (7 - x) y ≠ sqIdx r c := by
      unfold sqIdx
      intro hcon
      exact heq ⟨by omega, by omega⟩
    rw [byteAt_set_ne _ hne1 (flipByte_lt hv), byteAt_set_ne _ hne2 hv]
    exact hsq x hx y hy

theorem MirrB_setSq0 {b2 b1 : Board} (hsq : MirrB b2 b1) {r c : Nat} (hr : r < 8) (hc : c < 8) :
    MirrB (b2.setSq (7 - r) c 0) (b1.setSq r c 0) := by
  have h := MirrB_setSq hsq hr hc (show (0:Nat) < 256 by decide)
  rwa [flipByte_zero] at h

theorem MirrB_setSqP {b2 b1 : Board} (hsq : MirrB b2 b1) {r c : Nat} (hr : r < 8) (hc : c < 8)
    (p : Piece) :
    MirrB (b2.setSq (7 - r) c (Piece.encode p.flip)) (b1.setSq r c (Piece.encode p)) := by
  have h := MirrB_setSq hsq hr hc (encode_lt p)
  rwa [← encode_flip] at h

theorem exec_MirrB {b2 b1 : Board} (hsq : MirrB b2 b1) {m : Move}
    (h1 : m.fromRow < 8) (h2 : m.fromCol < 8) (h3 : m.toRow < 8) (h4 : m.toCol < 8) :
    MirrB (execMove b2 (mirrorMove m)) (execMove b1 m) := by
  have hpieceAt : b2.pieceAt (7 - m.fromRow) m.fromCol
      = (b1.pieceAt m.fromRow m.fromCol).map Piece.flip := by
    unfold Board.pieceAt
    rw [MirrB_code hsq h1 h2, decode_flip]
  unfold execMove
  dsimp only [mirrorMove]
  rw [hpieceAt]
  cases hp : b1.pieceAt m.fromRow m.fromCol with
  | none => exact hsq
  | some p =>
    dsimp only [Option.map, Piece.flip]
    have hstep1 : MirrB
        ((b2.setSq (7 - m.fromRow) m.fromCol 0).setSq (7 - m.toRow) m.toCol
          (Piece.encode ⟨p.color.opposite, m.promotion.getD p.kind, true⟩))
        ((b1.setSq m.fromRow m.fromCol 0).setSq m.toRow m.toCol
          (Piece.encode ⟨p.color, m.promotion.getD p.kind, true⟩)) :=
      MirrB_setSqP (MirrB_setSq0 hsq h1 h2) h3 h4 ⟨p.color, m.promotion.getD p.kind, true⟩
    by_cases hep : m.isEnPassant = true
    · rw [hep]
      have hstep2 := MirrB_setSq0 hstep1 h1 h4
      by_cases hcas : m.isCastling = true
      · rw [hcas]
        by_cases h6 : m.toCol = 6
        · rw [if_pos h6, if_pos h6, if_pos (show (true = true) from rfl),
            if_pos (show (true = true) from rfl)]
          exact MirrB_setSqP (MirrB_setSq0 hstep2 h1 (by decide)) h1 (by decide)
            ⟨p.color, .Rook, true⟩
        · rw [if_neg h6, if_neg h6, if_pos (show (true = true) from rfl),
            if_pos (show (true = true) from rfl)]
          exact MirrB_setSqP (MirrB_setSq0 hstep2 h1 (by decide)) h1 (by decide)
            ⟨p.color, .Rook, true⟩
      · rw [if_neg hcas, if_neg hcas, if_pos (show (true = true) from rfl),
          if_pos (show (true = true) from rfl)]
        exact hstep2
    · rw [if_neg hep, if_neg hep]
      by_cases hcas : m.isCastling = true
      · rw [hcas]
        by_cases h6 : m.toCol = 6
        · rw [if_pos h6, if_pos h6, if_pos (show (true = true) from rfl),
            if_pos (show (true = true) from rfl)]
          exact MirrB_setSqP (MirrB_setSq0 hstep1 h1 (by decide)) h1 (by decide)
            ⟨p.color, .Rook, true⟩
        · rw [if_neg h6, if_neg h6, if_pos (show (true = true) from rfl),
            if_pos (show (true = true) from rfl)]
          exact MirrB_setSqP (MirrB_setSq0 hstep1 h1 (by decide)) h1 (by decide)
            ⟨p.color, .Rook, true⟩
      · rw [if_neg hcas, if_neg hcas]
        exact hstep1

theorem pieceMoves_mirror {b2 b1 : Board} (hsq : MirrB b2 b1)
    (hep : b2.enPassantTarget = b1.enPassantTarget.map mirrorSq) (hepOk : epOk b1)
    (hcr : b2.castlingRights = ⟨b1.castlingRights.black, b1.castlingRights.white⟩)
    (col : Color) {r c : Nat} (hr : r < 8) (hc : c < 8) (k : Kind) :
    (pieceMoves b2 col.opposite (7 - r) c k).Perm
      ((pieceMoves b1 col r c k).map mirrorMove) := by
  cases k with
  | Pawn =>
    show (pawnMoves b2 col.opposite (7 - r) c).Perm _
    rw [pawnMoves_mirror hsq hep hepOk hr hc]
    exact List.Perm.refl _
  | Knight =>
    exact stepMoves_mirror hsq col hr (knight_perm hr c) (knight_bounds hr hc)
  | Bishop => exact slideMoves_mirror hsq col hr hc dirs_mirror_perm.2.1
  | Rook => exact slideMoves_mirror hsq col hr hc dirs_mirror_perm.1
  | Queen => exact slideMoves_mirror hsq col hr hc dirs_mirror_perm.2.2
  | King =>
    show ((stepMoves b2 col.opposite (7 - r) c (kingHops (7 - r) c))
        ++ castleSide b2 col.opposite true ++ castleSide b2 col.opposite false).Perm
      (List.map mirrorMove (stepMoves b1 col r c (kingHops r c)
        ++ castleSide b1 col true ++ castleSide b1 col false))
    rw [List.map_append, List.map_append, castleSide_mirror hsq hcr col true,
      castleSide_mirror hsq hcr col false]
    exact ((stepMoves_mirror hsq col hr (king_perm hr c) (king_bounds hr hc)).append
      (List.Perm.refl _)).append (List.Perm.refl _)

theorem pseudoMoves_mirror {b2 b1 : Board} (hsq : MirrB b2 b1)
    (hep : b2.enPassantTarget = b1.enPassantTarget.map mirrorSq) (hepOk : epOk b1)
    (hcr : b2.castlingRights = ⟨b1.castlingRights.black, b1.castlingRights.white⟩)
    (ht : b2.turn = b1.turn.opposite) :
    (pseudoMoves b2).Perm ((pseudoMoves b1).map mirrorMove) := by
  unfold pseudoMoves
  refine (List.Perm.flatMap_right _ squares64_mirror_perm.symm).trans ?_
  rw [List.flatMap_map, List.map_flatMap]
  refine flatMap_perm_congr fun s hs => ?_
  obtain ⟨hx, hy⟩ := mem_squares64 s hs
  show (if colCode (b2.code (7 - s.1) s.2) b2.turn
      then pieceMoves b2 b2.turn (7 - s.1) s.2 (kindOfCode (b2.code (7 - s.1) s.2 % 8))
      else []).Perm
    (List.map mirrorMove (if colCode (b1.code s.1 s.2) b1.turn
      then pieceMoves b1 b1.turn s.1 s.2 (kindOfCode (b1.code s.1 s.2 % 8)) else []))
  rw [ht, MirrB_code hsq hx hy, colCode_flip, opposite_opposite, mod8_flip]
  by_cases hocc : colCode (b1.code s.1 s.2) b1.turn = true
  · rw [if_pos hocc, if_pos hocc]
    exact pieceMoves_mirror hsq hep hepOk hcr b1.turn hx hy _
  · rw [if_neg hocc, if_neg hocc]
    exact List.Perm.refl _

theorem kingSquares_bounds {b : Board} {col : Color} :
    ∀ s ∈ kingSquares b col, s.1 < 8 ∧ s.2 < 8 :=
  fun s hs => mem_squares64 s (List.mem_of_mem_filter hs)

theorem attackedBy_mirror2 {b2 b1 : Board} (h : MirrB b2 b1) (a : Color)
    {r c : Nat} (hr : r < 8) (hc : c < 8) :
    attackedBy b2 a (7 - r) c = attackedBy b1 a.opposite r c := by
  have h2 := attackedBy_mirror h a.opposite hr hc
  rwa [opposite_opposite] at h2

theorem legalMoves_mirror {b2 b1 : Board} (hsq : MirrB b2 b1)
    (hep : b2.enPassantTarget = b1.enPassantTarget.map mirrorSq) (hepOk : epOk b1)
    (hcr : b2.castlingRights = ⟨b1.castlingRights.black, b1.castlingRights.white⟩)
    (ht : b2.turn = b1.turn.opposite) :
    (legalMoves b2).Perm ((legalMoves b1).map mirrorMove) := by
  unfold legalMoves
  refine (List.Perm.filter _ (pseudoMoves_mirror hsq hep hepOk hcr ht)).trans ?_
  rw [List.filter_map]
  refine List.Perm.of_eq (congrArg (List.map mirrorMove) ?_)
  refine List.filter_congr fun m hm => ?_
  obtain ⟨hf1, hf2, hf3, hf4⟩ := pseudo_bounds hm
  have hexec : MirrB (execMove b2 (mirrorMove m)) (execMove b1 m) :=
    exec_MirrB hsq hf1 hf2 hf3 hf4
  show (!((kingSquares b2 b2.turn).any fun k =>
        attackedBy (execMove b2 (mirrorMove m)) b2.turn.opposite
          (if k = ((mirrorMove m).fromRow, (mirrorMove m).fromCol)
           then ((mirrorMove m).toRow, (mirrorMove m).toCol) else k).1
          (if k = ((mirrorMove m).fromRow, (mirrorMove m).fromCol)
           then ((mirrorMove m).toRow, (mirrorMove m).toCol) else k).2))
      = (!((kingSquares b1 b1.turn).any fun k =>
        attackedBy (execMove b1 m) b1.turn.opposite
          (if k = (m.fromRow, m.fromCol) then (m.toRow, m.toCol) else k).1
          (if k = (m.fromRow, m.fromCol) then (m.toRow, m.toCol) else k).2))
  rw [ht]
  rw [any_of_perm (kingSquares_mirror_perm hsq b1.turn), List.any_map]
  congr 1
  refine any_congr_mem fun k hk => ?_
  obtain ⟨hk1, hk2⟩ := kingSquares_bounds k hk
  rcases k with ⟨kx, ky⟩
  dsimp only [Function.comp, mirrorSq, mirrorMove] at *
  by_cases hkm : (kx, ky) = (m.fromRow, m.fromCol)
  · have hx : kx = m.fromRow := (Prod.mk.injEq .. ▸ hkm).1
    have hy : ky = m.fromCol := (Prod.mk.injEq .. ▸ hkm).2
    subst hx
    subst hy
    rw [if_pos rfl, if_pos rfl]
    show attackedBy (execMove b2 (mirrorMove m)) b1.turn.opposite.opposite
        (7 - m.toRow) m.toCol = _
    rw [opposite_opposite]
    exact attackedBy_mirror2 hexec b1.turn hf3 hf4
  · have hkm2 : ¬ ((7 - kx, ky) = (7 - m.fromRow, m.fromCol)) := by
      intro hcon
      rw [Prod.mk.injEq] at hcon
      exact hkm (by rw [Prod.mk.injEq]; exact ⟨by omega, hcon.2⟩)
    rw [if_neg hkm2, if_neg hkm]
    show attackedBy (execMove b2 (mirrorMove m)) b1.turn.opposite.opposite
        (7 - kx) ky = _
    rw [opposite_opposite]
    exact attackedBy_mirror2 hexec b1.turn hk1 hk2

theorem pieceScore_flip (p : Piece) {r : Nat} (hr : r < 8) (c : Nat) :
    pieceScore p.flip (7 - r) c = -(pieceScore p r c) := by
  rcases p with ⟨pc, pk, pm⟩
  cases pc
  · show pieceScore ⟨.Black, pk, pm⟩ (7 - r) c = -(pieceScore ⟨.White, pk, pm⟩ r c)
    unfold pieceScore
    dsimp only
    rw [show 7 - (7 - r) = r by omega]
  · show pieceScore ⟨.White, pk, pm⟩ (7 - r) c = -(pieceScore ⟨.Black, pk, pm⟩ r c)
    unfold pieceScore
    dsimp only
    rw [neg_neg]

theorem materialScore_mirror {b2 b1 : Board} (hsq : MirrB b2 b1) :
    materialScore b2 = -(materialScore b1) := by
  unfold materialScore
  have h1 : ((squares64.map mirrorSq).map fun s =>
        match b2.pieceAt s.1 s.2 with
        | some p => pieceScore p s.1 s.2
        | none => 0).sum
      = (squares64.map fun s =>
        match b2.pieceAt s.1 s.2 with
        | some p => pieceScore p s.1 s.2
        | none => 0).sum :=
    List.Perm.sum_eq (List.Perm.map _ squares64_mirror_perm)
  rw [← h1, List.map_map]
  have h2 : squares64.map ((fun s =>
        match b2.pieceAt s.1 s.2 with
        | some p => pieceScore p s.1 s.2
        | none => 0) ∘ mirrorSq)
      = squares64.map fun s => -(match b1.pieceAt s.1 s.2 with
        | some p => pieceScore p s.1 s.2
        | none => 0) := by
    refine List.map_congr_left fun s hs => ?_
    obtain ⟨hx, hy⟩ := mem_squares64 s hs
    show (match b2.pieceAt (7 - s.1) s.2 with
        | some p => pieceScore p (7 - s.1) s.2
        | none => 0)
      = -(match b1.pieceAt s.1 s.2 with
        | some p => pieceScore p s.1 s.2
        | none => 0)
    have hpc : b2.pieceAt (7 - s.1) s.2 = (b1.pieceAt s.1 s.2).map Piece.flip := by
      unfold Board.pieceAt
      rw [MirrB_code hsq hx hy, decode_flip]
    rw [hpc]
    cases hp : b1.pieceAt s.1 s.2 with
    | none => dsimp only [Option.map]; rw [neg_zero]
    | some p =>
      dsimp only [Option.map]
      exact pieceScore_flip p hx s.2
  rw [h2]
  have h3 : (squares64.map fun s => -(match b1.pieceAt s.1 s.2 with
        | some p => pieceScore p s.1 s.2
        | none => 0))
      = (squares64.map fun s =>
        match b1.pieceAt s.1 s.2 with
        | some p => pieceScore p s.1 s.2
        | none => 0).map fun x => -x := by
    rw [List.map_map]
    rfl
  rw [h3, sum_map_neg]

theorem colorSign_opp (col : Color) : colorSign col.opposite = -(colorSign col) := by
  cases col <;> rfl

/-- **C6.** For every Board satisfying the §3 data-model invariant on the
en-passant target, evaluating the mirrored board — colours of all pieces
swapped, ranks reflected, side to move swapped, castling rights exchanged,
en-passant target reflected — yields exactly the negation of the original
evaluation: the evaluation is side-symmetric with positive scores favouring
White. -/
theorem C6_evaluate_mirror (b : Board) (h : epOk b) :
    evaluate (mirror b) = -(evaluate b) := by
  have hsq : MirrB (mirror b) b := mirror_MirrB b
  have hep : (mirror b).enPassantTarget = b.enPassantTarget.map mirrorSq := rfl
  have hcr : (mirror b).castlingRights
      = ⟨b.castlingRights.black, b.castlingRights.white⟩ := rfl
  have ht : (mirror b).turn = b.turn.opposite := rfl
  have hlen : (legalMoves (mirror b)).length = (legalMoves b).length := by
    have hp := legalMoves_mirror hsq hep h hcr ht
    rw [hp.length_eq, List.length_map]
  unfold evaluate
  rw [materialScore_mirror hsq, ht, colorSign_opp, hlen]
  ring

theorem C6_witness :
    epOk initialBoard ∧ evaluate (mirror initialBoard) = -(evaluate initialBoard) :=
  ⟨by decide, C6_evaluate_mirror initialBoard (by decide)⟩

end Chess
